import Mathlib

/-!
Accounts processor (`process/accountsProcessor.go`).

A shallow embedding of the stake-account merger and of the balance aggregator.

* A Go `map[string]*data.AccountInfoWithStakeValues` is a list of
  `(address, pointer)` entries with pairwise distinct addresses; the order of
  the list is the order in which the single `range` loop over that map visits
  it, so a statement about all lists is a statement about all iteration orders.
* The records live in an explicit heap, because the merged map stores the
  pointers of the source maps and the later loops write through them.
  Dereferencing a pointer the heap does not hold (Go's `nil`) is a run-time
  failure, modelled by the result `none`.
* `math/big` integers are `Int`; `float64` is a parameter type with its zero
  and its addition.
-/

namespace process

/-! ## Data model -/

/-- Modelled from the spec: the declaration of `data.AccountInfoWithStakeValues`
is not part of the sources at hand; the fields are those of the record of the
data model, under the names the source reads and writes them by. `F` is the
type of `float64` values. -/
structure AccountInfoWithStakeValues (F : Type) where
  Address : String
  DelegationLegacyWaiting : String
  DelegationLegacyActive : String
  ValidatorsActive : String
  ValidatorsActiveNum : F
  ValidatorTopUp : String
  ValidatorTopUpNum : F
  Delegation : String
  DelegationNum : F
  LKMEXStake : String
  LKMEXStakeNum : F
  TotalStake : String
  TotalStakeNum : F
deriving DecidableEq

/-- A pointer to a record. -/
abbrev Ptr := Nat

/-- The records reachable through pointers; `none` at a pointer that holds no
record (`nil`). -/
abbrev Heap (F : Type) := Ptr → Option (AccountInfoWithStakeValues F)

/-- The entries of a Go map from address to record pointer, in the order a
`range` loop visits them. -/
abbrev GoMap := List (String × Ptr)

/-- The addresses that are keys of a map. -/
def keys (m : GoMap) : List String := m.map Prod.fst

/-- The pointers stored in a map. -/
def ptrs (m : GoMap) : List Ptr := m.map Prod.snd

/-- Map lookup `v, ok := m[a]`. -/
def mapGet : GoMap → String → Option Ptr
  | [], _ => none
  | (k, v) :: m, a => if k = a then some v else mapGet m a

/-- Map assignment `m[a] = p`: the value of an existing key is replaced, a new
key gets a new entry. -/
def mapSet : GoMap → String → Ptr → GoMap
  | [], a, p => [(a, p)]
  | (k, v) :: m, a, p => if k = a then (k, p) :: m else (k, v) :: mapSet m a p

/-- The local variables of `mergeAccounts` together with the heap. -/
structure MergeState (F : Type) where
  heap : Heap F
  mergedAccounts : GoMap
  allAddresses : List String

/-- The record the merged mapping holds for an address. -/
def MergeState.record {F : Type} (st : MergeState F) (a : String) :
    Option (AccountInfoWithStakeValues F) :=
  (mapGet st.mergedAccounts a).bind st.heap

/-! ## `mergeAccounts` -/

/-- One statement `mergedAccounts[address].X = src.X`: both pointers are
dereferenced, then the record behind `mergedAccounts[address]` is rewritten by
`f`, which copies the field from the source record. -/
def assignField {F : Type} (st : MergeState F) (address : String) (src : Ptr)
    (f : AccountInfoWithStakeValues F → AccountInfoWithStakeValues F →
      AccountInfoWithStakeValues F) : Option (MergeState F) :=
  match mapGet st.mergedAccounts address with
  | none => none
  | some dst =>
    match st.heap src, st.heap dst with
    | some s, some d => some { st with heap := Function.update st.heap dst (some (f d s)) }
    | _, _ => none

/-- Body of the loop over `legacyDelegators` (lines 79-83). -/
def legacyStep {F : Type} (st : MergeState F) (e : String × Ptr) : MergeState F :=
  { st with
    mergedAccounts := mapSet st.mergedAccounts e.1 e.2
    allAddresses := st.allAddresses ++ [e.1] }

/-- Body of the loop over `validators` (lines 85-98). -/
def validatorsStep {F : Type} (st : MergeState F) (e : String × Ptr) :
    Option (MergeState F) :=
  match mapGet st.mergedAccounts e.1 with
  | none =>
    some { st with
      mergedAccounts := mapSet st.mergedAccounts e.1 e.2
      allAddresses := st.allAddresses ++ [e.1] }
  | some _ => do
    let st ← assignField st e.1 e.2 (fun d s => { d with ValidatorsActive := s.ValidatorsActive })
    let st ← assignField st e.1 e.2
      (fun d s => { d with ValidatorsActiveNum := s.ValidatorsActiveNum })
    let st ← assignField st e.1 e.2 (fun d s => { d with ValidatorTopUp := s.ValidatorTopUp })
    assignField st e.1 e.2 (fun d s => { d with ValidatorTopUpNum := s.ValidatorTopUpNum })

/-- Body of the loop over `delegators` (lines 100-111). -/
def delegatorsStep {F : Type} (st : MergeState F) (e : String × Ptr) :
    Option (MergeState F) :=
  match mapGet st.mergedAccounts e.1 with
  | none =>
    some { st with
      mergedAccounts := mapSet st.mergedAccounts e.1 e.2
      allAddresses := st.allAddresses ++ [e.1] }
  | some _ => do
    let st ← assignField st e.1 e.2 (fun d s => { d with Delegation := s.Delegation })
    assignField st e.1 e.2 (fun d s => { d with DelegationNum := s.DelegationNum })

/-- Body of the loop over `lkMexAccountsWithStake` (lines 113-124). -/
def lkMexStep {F : Type} (st : MergeState F) (e : String × Ptr) :
    Option (MergeState F) :=
  match mapGet st.mergedAccounts e.1 with
  | none =>
    some { st with
      mergedAccounts := mapSet st.mergedAccounts e.1 e.2
      allAddresses := st.allAddresses ++ [e.1] }
  | some _ => do
    let st ← assignField st e.1 e.2 (fun d s => { d with LKMEXStake := s.LKMEXStake })
    assignField st e.1 e.2 (fun d s => { d with LKMEXStakeNum := s.LKMEXStakeNum })

/-- The function `mergeAccounts` (lines 73-127), run on the heap `heap`. The
result holds the merged map, the address list and the heap after the writes. -/
def mergeAccounts {F : Type} (heap : Heap F)
    (legacyDelegators validators delegators lkMexAccountsWithStake : GoMap) :
    Option (MergeState F) := do
  let st : MergeState F := { heap := heap, mergedAccounts := [], allAddresses := [] }
  let st := legacyDelegators.foldl legacyStep st
  let st ← validators.foldlM validatorsStep st
  let st ← delegators.foldlM delegatorsStep st
  lkMexAccountsWithStake.foldlM lkMexStep st

/-! ## `computeTotalBalance` -/

/-- Value of a decimal digit. -/
def digitValue (c : Char) : Option Nat :=
  if '0' ≤ c ∧ c ≤ '9' then some (c.toNat - '0'.toNat) else none

/-- Scan of a digit sequence in base 10; fails on the empty sequence and on a
character that is no digit. -/
def scanDigits (cs : List Char) : Option Nat :=
  if cs = [] then none
  else cs.foldlM (fun acc c => (digitValue c).map (fun d => acc * 10 + d)) 0

/-- The call `big.NewInt(0).SetString(s, 10)`: an optional sign followed by at
least one decimal digit and nothing else; `none` stands for `ok = false`. -/
def bigSetString (s : String) : Option Int :=
  match s.toList with
  | '-' :: cs => (scanDigits cs).map (fun n => -(n : Int))
  | '+' :: cs => (scanDigits cs).map (fun n => (n : Int))
  | cs => (scanDigits cs).map (fun n => (n : Int))

/-- Decimal digits of a natural number, most significant first; `fuel` bounds
the number of digits. -/
def natDigits : Nat → Nat → List Char
  | 0, _ => []
  | fuel + 1, n =>
    if n < 10 then [Char.ofNat (n + '0'.toNat)]
    else natDigits fuel (n / 10) ++ [Char.ofNat (n % 10 + '0'.toNat)]

/-- The method `(*big.Int).String()`: the decimal digits without leading
zeros, after a minus sign for a negative number. -/
def bigString (z : Int) : String :=
  match z with
  | Int.ofNat n => String.mk (natDigits (n + 1) n)
  | Int.negSucc n => String.mk ('-' :: natDigits (n + 2) (n + 1))

/-- The `float64` operations the source uses. -/
structure Float64Ops (F : Type) where
  zero : F
  add : F → F → F

/-- Body of the loop of `computeTotalBalance` (lines 155-163). -/
def balanceStep {F : Type} (fl : Float64Ops F) (ComputeBalanceAsFloat : String → F)
    (acc : Int × F) (balance : String) : Int × F :=
  match bigSetString balance with
  | none => acc
  | some balanceBig => (acc.1 + balanceBig, fl.add acc.2 (ComputeBalanceAsFloat balance))

/-- The function `computeTotalBalance` (lines 147-166); the helper
`core.ComputeBalanceAsFloat` is a parameter. -/
def computeTotalBalance {F : Type} (fl : Float64Ops F) (ComputeBalanceAsFloat : String → F)
    (balances : List String) : String × F :=
  if balances.length = 0 then ("0", fl.zero)
  else
    let total := balances.foldl (balanceStep fl ComputeBalanceAsFloat) (0, fl.zero)
    (bigString total.1, total.2)

/-! ## `calculateTotalStakeForAccounts` and `GetAllAccountsWithStake` -/

/-- The record with its two totals recomputed by `computeTotalBalance` from the
five balances the source passes (lines 60-69). -/
def withTotals {F : Type} (fl : Float64Ops F) (ComputeBalanceAsFloat : String → F)
    (account : AccountInfoWithStakeValues F) : AccountInfoWithStakeValues F :=
  let total := computeTotalBalance fl ComputeBalanceAsFloat
    [account.DelegationLegacyWaiting, account.DelegationLegacyActive,
     account.ValidatorsActive, account.ValidatorTopUp, account.Delegation]
  { account with TotalStake := total.1, TotalStakeNum := total.2 }

/-- Body of the loop of `calculateTotalStakeForAccounts`: the record behind the
pointer of the entry is read and its totals are written; a pointer without
record makes the run fail. -/
def totalStakeStep {F : Type} (fl : Float64Ops F) (ComputeBalanceAsFloat : String → F)
    (heap : Heap F) (e : String × Ptr) : Option (Heap F) :=
  match heap e.2 with
  | none => none
  | some account =>
    some (Function.update heap e.2 (some (withTotals fl ComputeBalanceAsFloat account)))

/-- The function `calculateTotalStakeForAccounts` (lines 58-71); `accounts` lists
the entries in the order the loop visits them. -/
def calculateTotalStakeForAccounts {F : Type} (fl : Float64Ops F)
    (ComputeBalanceAsFloat : String → F) (heap : Heap F) (accounts : GoMap) :
    Option (Heap F) :=
  accounts.foldlM (totalStakeStep fl ComputeBalanceAsFloat) heap

/-- The three values `GetAllAccountsWithStake` returns, with the heap after the
call; `none` stands for `nil`. -/
structure AccountsWithStake (ε F : Type) where
  heap : Heap F
  allAccounts : Option GoMap
  allAddresses : Option (List String)
  err : Option ε

/-- The record the returned mapping holds for an address. -/
def AccountsWithStake.record {ε F : Type} (res : AccountsWithStake ε F) (a : String) :
    Option (AccountInfoWithStakeValues F) :=
  ((res.allAccounts.bind (fun m => mapGet m a)).bind res.heap)

/-- The method `GetAllAccountsWithStake` (lines 30-56). The four providers are
given by their results, `rangeOrder` is the order in which the loop of
`calculateTotalStakeForAccounts` visits the entries of the merged map, and the
result `none` is a run-time failure on a pointer without record. -/
def GetAllAccountsWithStake {ε F : Type} (fl : Float64Ops F)
    (ComputeBalanceAsFloat : String → F) (rangeOrder : GoMap → GoMap) (heap : Heap F)
    (GetLegacyDelegatorsAccounts GetValidatorsAccounts GetDelegatorsAccounts
      GetLKMEXStakeAccounts : Except ε GoMap) : Option (AccountsWithStake ε F) :=
  match GetLegacyDelegatorsAccounts with
  | .error err => some { heap := heap, allAccounts := none, allAddresses := none, err := some err }
  | .ok legacyDelegators =>
    match GetValidatorsAccounts with
    | .error err =>
      some { heap := heap, allAccounts := none, allAddresses := none, err := some err }
    | .ok validators =>
      match GetDelegatorsAccounts with
      | .error err =>
        some { heap := heap, allAccounts := none, allAddresses := none, err := some err }
      | .ok delegators =>
        match GetLKMEXStakeAccounts with
        | .error err =>
          some { heap := heap, allAccounts := none, allAddresses := none, err := some err }
        | .ok lkMexAccountsWithStake =>
          match mergeAccounts heap legacyDelegators validators delegators
              lkMexAccountsWithStake with
          | none => none
          | some st =>
            match calculateTotalStakeForAccounts fl ComputeBalanceAsFloat st.heap
                (rangeOrder st.mergedAccounts) with
            | none => none
            | some heap' =>
              some { heap := heap', allAccounts := some st.mergedAccounts,
                     allAddresses := some st.allAddresses, err := none }

/-- Modelled from the spec: the helper `core.ComputeBalanceAsFloat` is not part
of the sources at hand; the spec calls it the balance-to-float conversion that
gives the `float64` approximation of a decimal-string balance. `ofInt` is the
conversion of an integer to the nearest `float64`. -/
def ComputeBalanceAsFloat {F : Type} (fl : Float64Ops F) (ofInt : Int → F)
    (balance : String) : F :=
  match bigSetString balance with
  | some z => ofInt z
  | none => fl.zero

/-- The part of IEEE 754 arithmetic the sample totals rest on: `float64(0)` is
the conversion of the integer `0`, and the sum of two integers is exact as long
as the summands and the sum have magnitude at most `2 ^ 53`. -/
def ExactOnIntegers {F : Type} (fl : Float64Ops F) (ofInt : Int → F) : Prop :=
  fl.zero = ofInt 0 ∧
  ∀ a b : Int, |a| ≤ 2 ^ 53 → |b| ≤ 2 ^ 53 → |a + b| ≤ 2 ^ 53 →
    fl.add (ofInt a) (ofInt b) = ofInt (a + b)

/-- Integers in place of `float64` values, for the sample data. -/
def intOps : Float64Ops Int := { zero := 0, add := fun x y => x + y }

/-! ## `ComputeClonedAccountsIndex` -/

/-- The path of the status request (line 13). -/
def pathNodeStatusMeta : String := "/network/status/4294967295"

/-- Modelled from the spec: the declaration of `data.GenericAPIResponse` is not
part of the sources at hand; the response envelope has the payload `Data` and
the string `Error`, which is empty on success. -/
structure GenericAPIResponse where
  Data : String
  Error : String
deriving DecidableEq

/-- The `error` values `ComputeClonedAccountsIndex` returns: an error of the
REST client, or the error built by `fmt.Errorf`, given by its message. -/
inductive IndexError (ε : Type) where
  | transport (err : ε)
  | errorf (message : String)
deriving DecidableEq

/-- The method `ComputeClonedAccountsIndex` (lines 130-145), which returns a
name and an `error` (`none` for `nil`). The base name `accountsIndex` is a
constant declared outside the file. `CallGetRestEndPoint path response` is the
call of the REST client with the empty credentials: it gives the response it
has filled in and its error. `gjsonGet json path` is
`gjson.Get(json, path).String()`, with `none` when the path has no value, whose
`String()` is the empty string. The log line is left out. -/
def ComputeClonedAccountsIndex {ε : Type} (accountsIndex : String)
    (CallGetRestEndPoint : String → GenericAPIResponse → GenericAPIResponse × Option ε)
    (gjsonGet : String → String → Option String) : String × Option (IndexError ε) :=
  let called := CallGetRestEndPoint pathNodeStatusMeta { Data := "", Error := "" }
  let genericAPIResponse := called.1
  match called.2 with
  | some err => ("", some (.transport err))
  | none =>
    if genericAPIResponse.Error ≠ "" then
      ("", some (.errorf ("cannot compute accounts index " ++ genericAPIResponse.Error)))
    else
      let epoch := gjsonGet genericAPIResponse.Data "status.erd_epoch_number"
      (accountsIndex ++ "_" ++ epoch.getD "", none)

/-! ## Auxiliary definitions for the proofs -/

/-- All the field copies of one overwrite pass, applied in order to the
destination record `d` with the source record `s`. -/
def copyFields {F : Type}
    (fs : List (AccountInfoWithStakeValues F → AccountInfoWithStakeValues F →
      AccountInfoWithStakeValues F))
    (d s : AccountInfoWithStakeValues F) : AccountInfoWithStakeValues F :=
  fs.foldl (fun d f => f d s) d

/-- The common shape of the loops over `validators`, `delegators` and
`lkMexAccountsWithStake`: insert the entry when the address is new, otherwise
run the assignments `fs` one after the other. -/
def foldSource {F : Type}
    (fs : List (AccountInfoWithStakeValues F → AccountInfoWithStakeValues F →
      AccountInfoWithStakeValues F))
    (st : MergeState F) (e : String × Ptr) : Option (MergeState F) :=
  match mapGet st.mergedAccounts e.1 with
  | none =>
    some { st with
      mergedAccounts := mapSet st.mergedAccounts e.1 e.2
      allAddresses := st.allAddresses ++ [e.1] }
  | some _ => fs.foldlM (fun st f => assignField st e.1 e.2 f) st

/-- The assignments of the loop over `validators`. -/
def validatorsFields {F : Type} :
    List (AccountInfoWithStakeValues F → AccountInfoWithStakeValues F →
      AccountInfoWithStakeValues F) :=
  [fun d s => { d with ValidatorsActive := s.ValidatorsActive },
   fun d s => { d with ValidatorsActiveNum := s.ValidatorsActiveNum },
   fun d s => { d with ValidatorTopUp := s.ValidatorTopUp },
   fun d s => { d with ValidatorTopUpNum := s.ValidatorTopUpNum }]

/-- The assignments of the loop over `delegators`. -/
def delegatorsFields {F : Type} :
    List (AccountInfoWithStakeValues F → AccountInfoWithStakeValues F →
      AccountInfoWithStakeValues F) :=
  [fun d s => { d with Delegation := s.Delegation },
   fun d s => { d with DelegationNum := s.DelegationNum }]

/-- The assignments of the loop over `lkMexAccountsWithStake`. -/
def lkMexFields {F : Type} :
    List (AccountInfoWithStakeValues F → AccountInfoWithStakeValues F →
      AccountInfoWithStakeValues F) :=
  [fun d s => { d with LKMEXStake := s.LKMEXStake },
   fun d s => { d with LKMEXStakeNum := s.LKMEXStakeNum }]

/-- The record after one overwrite pass: `base` with the fields `fs` taken from
the record behind `q`, if the source map has an entry `q` for the address. -/
def overlay {F : Type}
    (fs : List (AccountInfoWithStakeValues F → AccountInfoWithStakeValues F →
      AccountInfoWithStakeValues F))
    (h : Heap F) (base : Option (AccountInfoWithStakeValues F)) (q : Option Ptr) :
    Option (AccountInfoWithStakeValues F) :=
  match q with
  | none => base
  | some q =>
    match base, h q with
    | some d, some s => some (copyFields fs d s)
    | _, _ => none

/-- The entries of `src` whose address is not a key of `m`. -/
def freshEntries (m src : GoMap) : GoMap :=
  src.filter (fun e => decide (e.1 ∉ keys m))

/-- The merged map after a loop over `src`: the entries of `m`, then the
entries of `src` with a new address. -/
def addSource (m src : GoMap) : GoMap := m ++ freshEntries m src

/-- The merged map in closed form. -/
def mergedMap (legacyDelegators validators delegators lkMexAccountsWithStake : GoMap) : GoMap :=
  addSource (addSource (addSource legacyDelegators validators) delegators)
    lkMexAccountsWithStake

/-- The merged record behind the pointer `p` of the address `a` in closed form:
the record `p` pointed to at the start, with the validator fields of
`validators[a]`, the delegation fields of `delegators[a]` and the lkMex fields of
`lkMexAccountsWithStake[a]`, for each of these entries that exists. -/
def mergedRecord {F : Type} (heap : Heap F)
    (validators delegators lkMexAccountsWithStake : GoMap) (a : String) (p : Ptr) :
    Option (AccountInfoWithStakeValues F) :=
  overlay lkMexFields heap
    (overlay delegatorsFields heap
      (overlay validatorsFields heap (heap p) (mapGet validators a))
      (mapGet delegators a))
    (mapGet lkMexAccountsWithStake a)

/-- The record a source contributes its fields from: the record of the
source's entry for `a`, or the base record `b` when the source has no entry. -/
def sourceRecord {F : Type} (heap : Heap F) (m : GoMap) (a : String)
    (b : AccountInfoWithStakeValues F) : Option (AccountInfoWithStakeValues F) :=
  match mapGet m a with
  | some q => heap q
  | none => some b

/-- The entry of the first source, in the order legacy, validators, delegators,
lkMex, that has the address `a` as a key. -/
def firstEntry (legacyDelegators validators delegators lkMexAccountsWithStake : GoMap)
    (a : String) : Option Ptr :=
  match mapGet legacyDelegators a with
  | some p => some p
  | none =>
    match mapGet validators a with
    | some p => some p
    | none =>
      match mapGet delegators a with
      | some p => some p
      | none => mapGet lkMexAccountsWithStake a

/-- The addresses the loop over `validators` appends to the address list. -/
def validatorsSegment (legacyDelegators validators : GoMap) : List String :=
  (keys validators).filter (fun a => decide (a ∉ keys legacyDelegators))

/-- The addresses the loop over `delegators` appends to the address list. -/
def delegatorsSegment (legacyDelegators validators delegators : GoMap) : List String :=
  (keys delegators).filter
    (fun a => decide (a ∉ keys legacyDelegators ∧ a ∉ keys validators))

/-- The addresses the loop over `lkMexAccountsWithStake` appends to the address
list. -/
def lkMexSegment (legacyDelegators validators delegators lkMexAccountsWithStake : GoMap) :
    List String :=
  (keys lkMexAccountsWithStake).filter
    (fun a => decide (a ∉ keys legacyDelegators ∧ a ∉ keys validators ∧ a ∉ keys delegators))

/-- Two records agree on every field but `TotalStake` and `TotalStakeNum`. -/
def SameComponents {F : Type} (r1 r2 : AccountInfoWithStakeValues F) : Prop :=
  r2 = { r1 with TotalStake := r2.TotalStake, TotalStakeNum := r2.TotalStakeNum }

/-- Each source is a map (no address twice) and each of its pointers holds a
record in the heap. -/
abbrev WellFormed {F : Type} (heap : Heap F)
    (legacyDelegators validators delegators lkMexAccountsWithStake : GoMap) : Prop :=
  (keys legacyDelegators).Nodup ∧ (keys validators).Nodup ∧ (keys delegators).Nodup ∧
  (keys lkMexAccountsWithStake).Nodup ∧
  ∀ p ∈ ptrs legacyDelegators ++ ptrs validators ++ ptrs delegators ++
    ptrs lkMexAccountsWithStake, (heap p).isSome

/-- Each entry of the four sources has a record of its own: no pointer occurs in
two entries. -/
abbrev OwnRecords
    (legacyDelegators validators delegators lkMexAccountsWithStake : GoMap) : Prop :=
  (ptrs legacyDelegators ++ ptrs validators ++ ptrs delegators ++
    ptrs lkMexAccountsWithStake).Nodup

/-! ## Sample data -/

/-- A record with the given address and default values in every other field. -/
def emptyAccount (address : String) : AccountInfoWithStakeValues Int :=
  { Address := address
    DelegationLegacyWaiting := ""
    DelegationLegacyActive := ""
    ValidatorsActive := ""
    ValidatorsActiveNum := 0
    ValidatorTopUp := ""
    ValidatorTopUpNum := 0
    Delegation := ""
    DelegationNum := 0
    LKMEXStake := ""
    LKMEXStakeNum := 0
    TotalStake := ""
    TotalStakeNum := 0 }

/-- A heap with five records: one for address `A` from the legacy source, one
for `A` and one for `B` from the validators, one for `C` from the delegators and
one for `C` from the lkMex source. -/
def sampleHeap : Heap Int := fun p =>
  if p = 1 then some { emptyAccount "A" with DelegationLegacyActive := "50" }
  else if p = 2 then some { emptyAccount "A" with ValidatorsActive := "25" }
  else if p = 3 then some { emptyAccount "B" with ValidatorTopUp := "8" }
  else if p = 4 then some { emptyAccount "C" with Delegation := "3" }
  else if p = 5 then some { emptyAccount "C" with LKMEXStake := "11" }
  else none

/-- Sample legacy source. -/
def sampleLegacy : GoMap := [("A", 1)]

/-- Sample validators source. -/
def sampleValidators : GoMap := [("B", 3), ("A", 2)]

/-- Sample delegators source. -/
def sampleDelegators : GoMap := [("C", 4)]

/-- Sample lkMex source. -/
def sampleLkMex : GoMap := [("C", 5)]

/-- A heap whose only record, of the legacy source, has a validator balance. -/
def legacyOnlyHeap : Heap Int := fun p =>
  if p = 1 then
    some { emptyAccount "A" with DelegationLegacyActive := "50", ValidatorsActive := "7" }
  else none

/-- A heap whose only record has a delegation of `3` and a locked-token stake
of `11`. -/
def lkMexStakeHeap : Heap Int := fun p =>
  if p = 1 then some { emptyAccount "C" with Delegation := "3", LKMEXStake := "11" }
  else none

/-- The heap `sampleHeap` with other totals in the legacy record of `A`. -/
def staleTotalsHeap : Heap Int := fun p =>
  if p = 1 then
    some { emptyAccount "A" with DelegationLegacyActive := "50", TotalStake := "999",
                                 TotalStakeNum := 5 }
  else sampleHeap p

/-! ## Lemmas on maps -/

theorem mapGet_eq_none_iff (m : GoMap) (a : String) : mapGet m a = none ↔ a ∉ keys m := by
  induction m with
  | nil => simp [mapGet, keys]
  | cons e m ih =>
    obtain ⟨k, v⟩ := e
    by_cases hk : k = a
    · simp [mapGet, keys, hk]
    · have hk2 : ¬ a = k := fun h => hk h.symm
      simpa [mapGet, keys, hk, hk2] using ih

theorem mapGet_isSome_iff (m : GoMap) (a : String) : (mapGet m a).isSome ↔ a ∈ keys m := by
  rw [← not_iff_not, ← mapGet_eq_none_iff]
  cases mapGet m a <;> simp

theorem mapGet_mem (m : GoMap) (a : String) (p : Ptr) (h : mapGet m a = some p) :
    (a, p) ∈ m := by
  induction m with
  | nil => simp [mapGet] at h
  | cons e m ih =>
    obtain ⟨k, v⟩ := e
    by_cases hk : k = a
    · simp [mapGet, hk] at h
      simp [hk, h]
    · simp [mapGet, hk] at h
      exact List.mem_cons_of_mem _ (ih h)

theorem mapGet_mem_ptrs (m : GoMap) (a : String) (p : Ptr) (h : mapGet m a = some p) :
    p ∈ ptrs m :=
  List.mem_map.2 ⟨(a, p), mapGet_mem m a p h, rfl⟩

theorem mapGet_mem_keys (m : GoMap) (a : String) (p : Ptr) (h : mapGet m a = some p) :
    a ∈ keys m :=
  List.mem_map.2 ⟨(a, p), mapGet_mem m a p h, rfl⟩

theorem mapGet_of_mem (m : GoMap) (a : String) (p : Ptr) (hn : (keys m).Nodup)
    (h : (a, p) ∈ m) : mapGet m a = some p := by
  induction m with
  | nil => simp at h
  | cons e m ih =>
    obtain ⟨k, v⟩ := e
    simp only [keys, List.map_cons, List.nodup_cons] at hn
    rcases List.mem_cons.1 h with h1 | h1
    · cases h1
      simp [mapGet]
    · have hk : k ≠ a := by
        rintro rfl
        exact hn.1 (List.mem_map.2 ⟨(k, p), h1, rfl⟩)
      simp only [mapGet, hk, if_false]
      exact ih hn.2 h1

theorem mapSet_of_not_mem (m : GoMap) (a : String) (p : Ptr) (h : a ∉ keys m) :
    mapSet m a p = m ++ [(a, p)] := by
  induction m with
  | nil => simp [mapSet]
  | cons e m ih =>
    obtain ⟨k, v⟩ := e
    simp only [keys, List.map_cons, List.mem_cons, not_or] at h
    have hk : ¬ k = a := fun h1 => h.1 h1.symm
    simp only [mapSet, hk, if_false, List.cons_append]
    rw [ih h.2]

theorem mapGet_append (m n : GoMap) (a : String) :
    mapGet (m ++ n) a = (mapGet m a).orElse (fun _ => mapGet n a) := by
  induction m with
  | nil => simp [mapGet]
  | cons e m ih =>
    obtain ⟨k, v⟩ := e
    by_cases hk : k = a
    · simp [mapGet, hk]
    · simp [mapGet, hk, ih]

theorem mapGet_freshEntries (m src : GoMap) (a : String) (h : a ∉ keys m) :
    mapGet (freshEntries m src) a = mapGet src a := by
  induction src with
  | nil => rfl
  | cons e src ih =>
    obtain ⟨k, v⟩ := e
    by_cases hk : k = a
    · subst hk
      simp [freshEntries, List.filter_cons, h, mapGet]
    · by_cases hm : k ∈ keys m
      · simpa [freshEntries, List.filter_cons, hm, mapGet, hk] using ih
      · simpa [freshEntries, List.filter_cons, hm, mapGet, hk] using ih

theorem mapGet_append_fresh (m src : GoMap) (a : String) :
    mapGet (m ++ freshEntries m src) a = (mapGet m a).orElse (fun _ => mapGet src a) := by
  rw [mapGet_append]
  cases hm : mapGet m a with
  | none =>
    simp only [Option.orElse]
    exact mapGet_freshEntries m src a ((mapGet_eq_none_iff m a).1 hm)
  | some p => rfl

/-! ## The overwrite pass of one entry -/

theorem validatorsStep_eq {F : Type} (st : MergeState F) (e : String × Ptr) :
    validatorsStep st e = foldSource validatorsFields st e := by
  unfold validatorsStep foldSource validatorsFields
  cases mapGet st.mergedAccounts e.1 <;> simp [List.foldlM]

theorem delegatorsStep_eq {F : Type} (st : MergeState F) (e : String × Ptr) :
    delegatorsStep st e = foldSource delegatorsFields st e := by
  unfold delegatorsStep foldSource delegatorsFields
  cases mapGet st.mergedAccounts e.1 <;> simp [List.foldlM]

theorem lkMexStep_eq {F : Type} (st : MergeState F) (e : String × Ptr) :
    lkMexStep st e = foldSource lkMexFields st e := by
  unfold lkMexStep foldSource lkMexFields
  cases mapGet st.mergedAccounts e.1 <;> simp [List.foldlM]

/-- The assignments of one overwrite pass succeed when both pointers hold a
record; they change the heap at the destination pointer only, where the record
becomes `copyFields fs d s` if source and destination are different pointers. -/
theorem overwrite_spec {F : Type}
    (fs : List (AccountInfoWithStakeValues F → AccountInfoWithStakeValues F →
      AccountInfoWithStakeValues F)) (a : String) (p q : Ptr) :
    ∀ (st : MergeState F) (d s : AccountInfoWithStakeValues F),
      mapGet st.mergedAccounts a = some p → st.heap p = some d → st.heap q = some s →
      ∃ st', fs.foldlM (fun st f => assignField st a q f) st = some st' ∧
        st'.mergedAccounts = st.mergedAccounts ∧ st'.allAddresses = st.allAddresses ∧
        (∀ x, (st'.heap x).isSome = (st.heap x).isSome) ∧
        (∀ x, x ≠ p → st'.heap x = st.heap x) ∧
        (q ≠ p → st'.heap p = some (copyFields fs d s)) := by
  induction fs with
  | nil =>
    intro st d s _ hd _
    exact ⟨st, rfl, rfl, rfl, fun _ => rfl, fun _ _ => rfl, fun _ => by simpa [copyFields] using hd⟩
  | cons f fs ih =>
    intro st d s hm hd hs
    have h1 : assignField st a q f
        = some { st with heap := Function.update st.heap p (some (f d s)) } := by
      simp [assignField, hm, hd, hs]
    by_cases hqp : q = p
    · subst hqp
      have hds : s = d := by
        rw [hd] at hs
        exact (Option.some.inj hs).symm
      obtain ⟨st', h2, h3, h4, h5, h6, _⟩ :=
        ih { st with heap := Function.update st.heap q (some (f d s)) } (f d s) (f d s)
          hm (by simp) (by simp)
      refine ⟨st', ?_, h3, h4, ?_, ?_, fun h => absurd rfl h⟩
      · simp [List.foldlM, h1, h2]
      · intro x
        rw [h5 x]
        by_cases hx : x = q
        · subst hx
          simp [hd]
        · simp [Function.update, hx]
      · intro x hx
        rw [h6 x hx]
        simp [Function.update, hx]
    · obtain ⟨st', h2, h3, h4, h5, h6, h7⟩ :=
        ih { st with heap := Function.update st.heap p (some (f d s)) } (f d s) s
          hm (by simp) (by simp [Function.update, hqp, hs])
      refine ⟨st', ?_, h3, h4, ?_, ?_, ?_⟩
      · simp [List.foldlM, h1, h2]
      · intro x
        rw [h5 x]
        by_cases hx : x = p
        · subst hx
          simp [hd]
        · simp [Function.update, hx]
      · intro x hx
        rw [h6 x hx]
        simp [Function.update, hx]
      · intro _
        rw [h7 hqp]
        simp [copyFields]

theorem mapGet_ptr_inj (m : GoMap) (a b : String) (p : Ptr) (hn : (ptrs m).Nodup)
    (ha : mapGet m a = some p) (hb : mapGet m b = some p) : a = b := by
  have h := List.inj_on_of_nodup_map hn (mapGet_mem m a p ha) (mapGet_mem m b p hb) rfl
  exact congrArg Prod.fst h

theorem freshEntries_cons_of_mem (m src : GoMap) (e : String × Ptr) (h : e.1 ∈ keys m) :
    freshEntries m (e :: src) = freshEntries m src := by
  simp [freshEntries, List.filter_cons, h]

theorem freshEntries_cons_of_not_mem (m src : GoMap) (e : String × Ptr) (h : e.1 ∉ keys m) :
    freshEntries m (e :: src) = e :: freshEntries m src := by
  simp [freshEntries, List.filter_cons, h]

theorem freshEntries_append_singleton (m src : GoMap) (e : String × Ptr)
    (h : e.1 ∉ keys src) : freshEntries (m ++ [e]) src = freshEntries m src := by
  unfold freshEntries
  apply List.filter_congr
  intro x hx
  have hxe : x.1 ≠ e.1 := by
    intro h1
    exact h (h1 ▸ List.mem_map.2 ⟨x, hx, rfl⟩)
  simp [keys, hxe]

/-! ## One loop over a source map -/

/-- The loop over a source map whose pointers all hold a record runs to its
end; it appends the entries with a new address to the merged map and their
addresses to the address list. If moreover no pointer occurs twice among the
merged map and the source, the heap changes only behind the merged map, where
the record of an address of the source gets the fields `fs` of its source
record. -/
theorem foldSource_loop {F : Type}
    (fs : List (AccountInfoWithStakeValues F → AccountInfoWithStakeValues F →
      AccountInfoWithStakeValues F)) (src : GoMap) :
    ∀ st : MergeState F, (keys src).Nodup →
      (∀ p ∈ ptrs src, (st.heap p).isSome) →
      (∀ p ∈ ptrs st.mergedAccounts, (st.heap p).isSome) →
      ∃ st', src.foldlM (foldSource fs) st = some st' ∧
        st'.mergedAccounts = st.mergedAccounts ++ freshEntries st.mergedAccounts src ∧
        st'.allAddresses = st.allAddresses ++ keys (freshEntries st.mergedAccounts src) ∧
        (∀ x, (st'.heap x).isSome = (st.heap x).isSome) ∧
        ((ptrs st.mergedAccounts ++ ptrs src).Nodup →
          (∀ x, x ∉ ptrs st.mergedAccounts → st'.heap x = st.heap x) ∧
          (∀ a p, mapGet st.mergedAccounts a = some p →
            st'.heap p = overlay fs st.heap (st.heap p) (mapGet src a))) := by
  induction src with
  | nil =>
    intro st _ _ _
    refine ⟨st, rfl, by simp [freshEntries], by simp [freshEntries, keys], fun _ => rfl, ?_⟩
    intro _
    exact ⟨fun _ _ => rfl, fun _ _ _ => by simp [mapGet, overlay]⟩
  | cons e rest ih =>
    intro st hnd hsrc hmer
    obtain ⟨k, q⟩ := e
    have hk : k ∉ keys rest := by
      simp only [keys, List.map_cons, List.nodup_cons] at hnd
      exact hnd.1
    have hnd' : (keys rest).Nodup := by
      simp only [keys, List.map_cons, List.nodup_cons] at hnd
      exact hnd.2
    have hq : (st.heap q).isSome := hsrc q (by simp [ptrs])
    have hrest : ∀ p ∈ ptrs rest, (st.heap p).isSome := fun p hp =>
      hsrc p (by simp only [ptrs, List.map_cons, List.mem_cons]; exact Or.inr hp)
    cases hm : mapGet st.mergedAccounts k with
    | none =>
      have hkm : k ∉ keys st.mergedAccounts := (mapGet_eq_none_iff _ _).1 hm
      have hstep : foldSource fs st (k, q) = some
          { st with mergedAccounts := st.mergedAccounts ++ [(k, q)]
                    allAddresses := st.allAddresses ++ [k] } := by
        simp [foldSource, hm, mapSet_of_not_mem _ _ _ hkm]
      obtain ⟨st', h1, h2, h3, h4, h5⟩ :=
        ih { st with mergedAccounts := st.mergedAccounts ++ [(k, q)]
                     allAddresses := st.allAddresses ++ [k] } hnd' hrest
          (by
            intro p hp
            simp only [ptrs, List.map_append, List.map_cons, List.map_nil, List.mem_append,
              List.mem_singleton] at hp
            rcases hp with hp | hp
            · exact hmer p hp
            · exact hp ▸ hq)
      simp only [freshEntries_append_singleton _ _ (k, q) hk] at h2 h3
      refine ⟨st', ?_, ?_, ?_, h4, ?_⟩
      · simp [List.foldlM, hstep, h1]
      · rw [h2, freshEntries_cons_of_not_mem _ _ (k, q) hkm]
        simp
      · rw [h3, freshEntries_cons_of_not_mem _ _ (k, q) hkm]
        simp [keys]
      · intro hsep
        have hsep' : (ptrs (st.mergedAccounts ++ [(k, q)]) ++ ptrs rest).Nodup := by
          simpa [ptrs] using hsep
        obtain ⟨h6, h7⟩ := h5 hsep'
        have hgetk : mapGet (st.mergedAccounts ++ [(k, q)]) k = some q := by
          simp [mapGet_append, hm, mapGet]
        constructor
        · intro x hx
          by_cases hxq : x = q
          · subst hxq
            have := h7 k x hgetk
            rw [(mapGet_eq_none_iff rest k).2 hk] at this
            simpa [overlay] using this
          · apply h6 x
            simp only [ptrs, List.map_append, List.map_cons, List.map_nil, List.mem_append,
              List.mem_singleton, not_or]
            exact ⟨hx, hxq⟩
        · intro a p hap
          have hka : k ≠ a := by
            rintro rfl
            exact hkm (mapGet_mem_keys _ _ _ hap)
          have := h7 a p (by simp [mapGet_append, hap])
          simpa [mapGet, hka] using this
    | some p0 =>
      have hkm : k ∈ keys st.mergedAccounts := mapGet_mem_keys _ _ _ hm
      have hp0 : (st.heap p0).isSome := hmer p0 (mapGet_mem_ptrs _ _ _ hm)
      obtain ⟨d, hd⟩ := Option.isSome_iff_exists.1 hp0
      obtain ⟨s, hs⟩ := Option.isSome_iff_exists.1 hq
      obtain ⟨st1, g1, g2, g3, g4, g5, g6⟩ := overwrite_spec fs k p0 q st d s hm hd hs
      have hstep : foldSource fs st (k, q) = some st1 := by
        simp only [foldSource, hm]
        exact g1
      obtain ⟨st', h1, h2, h3, h4, h5⟩ := ih st1 hnd'
        (fun p hp => by rw [g4]; exact hrest p hp)
        (fun p hp => by rw [g4]; exact hmer p (g2 ▸ hp))
      refine ⟨st', ?_, ?_, ?_, ?_, ?_⟩
      · simp [List.foldlM, hstep, h1]
      · rw [h2, g2, freshEntries_cons_of_mem _ _ (k, q) hkm]
      · rw [h3, g2, g3, freshEntries_cons_of_mem _ _ (k, q) hkm]
      · intro x
        rw [h4, g4]
      · intro hsep
        have hsep1 : (ptrs st.mergedAccounts).Nodup := (List.nodup_append.1 hsep).1
        have hdisj : ∀ x, x ∈ ptrs st.mergedAccounts → x ∈ ptrs ((k, q) :: rest) → False :=
          fun x hx hy => (List.nodup_append.1 hsep).2.2 hx hy
        have hqp0 : q ≠ p0 := by
          rintro rfl
          exact hdisj q (mapGet_mem_ptrs _ _ _ hm) (by simp [ptrs])
        have hsep' : (ptrs st1.mergedAccounts ++ ptrs rest).Nodup := by
          rw [g2]
          refine List.Nodup.sublist ?_ hsep
          exact List.Sublist.append_left (by simp [ptrs]) _
        obtain ⟨h6, h7⟩ := h5 hsep'
        rw [g2] at h6 h7
        constructor
        · intro x hx
          rw [h6 x hx]
          apply g5
          rintro rfl
          exact hx (mapGet_mem_ptrs _ _ _ hm)
        · intro a p hap
          rw [h7 a p hap]
          by_cases hka : k = a
          · subst hka
            have hpp : p = p0 := by
              rw [hm] at hap
              exact (Option.some.inj hap).symm
            subst hpp
            rw [(mapGet_eq_none_iff rest k).2 hk]
            simp [overlay, mapGet, g6 hqp0, hd, hs]
          · have hpp : p ≠ p0 := by
              rintro rfl
              exact hka (mapGet_ptr_inj _ _ _ _ hsep1 hm hap)
            simp only [mapGet, hka, if_false]
            rw [g5 p hpp]
            cases hr : mapGet rest a with
            | none => rfl
            | some q' =>
              have hq' : q' ≠ p0 := by
                rintro rfl
                exact hdisj q' (mapGet_mem_ptrs _ _ _ hm)
                  (by
                    simp only [ptrs, List.map_cons, List.mem_cons]
                    exact Or.inr (mapGet_mem_ptrs _ _ _ hr))
              simp only [overlay]
              rw [g5 q' hq']

theorem keys_append (m n : GoMap) : keys (m ++ n) = keys m ++ keys n := by
  simp [keys]

theorem ptrs_append (m n : GoMap) : ptrs (m ++ n) = ptrs m ++ ptrs n := by
  simp [ptrs]

theorem keys_freshEntries (m src : GoMap) :
    keys (freshEntries m src) = (keys src).filter (fun a => decide (a ∉ keys m)) := by
  unfold freshEntries keys
  rw [List.filter_map]
  rfl

theorem mem_keys_addSource (m src : GoMap) (a : String) :
    a ∈ keys (addSource m src) ↔ a ∈ keys m ∨ a ∈ keys src := by
  unfold addSource
  rw [keys_append, List.mem_append, keys_freshEntries, List.mem_filter]
  by_cases h : a ∈ keys m <;> simp [h]

theorem ptrs_freshEntries_sublist (m src : GoMap) :
    (ptrs (freshEntries m src)).Sublist (ptrs src) := by
  unfold ptrs freshEntries
  exact List.Sublist.map _ (List.filter_sublist _)

theorem ptrs_addSource_sublist (m src : GoMap) :
    (ptrs (addSource m src)).Sublist (ptrs m ++ ptrs src) := by
  unfold addSource
  rw [ptrs_append]
  exact List.Sublist.append (List.Sublist.refl _) (ptrs_freshEntries_sublist m src)

theorem keys_nodup_addSource (m src : GoMap) (hm : (keys m).Nodup) (hs : (keys src).Nodup) :
    (keys (addSource m src)).Nodup := by
  unfold addSource
  rw [keys_append, keys_freshEntries]
  refine List.nodup_append.2 ⟨hm, hs.filter _, ?_⟩
  intro a ha hb
  have := (List.mem_filter.1 hb).2
  simp [ha] at this

theorem mapGet_addSource (m src : GoMap) (a : String) :
    mapGet (addSource m src) a = (mapGet m a).orElse (fun _ => mapGet src a) :=
  mapGet_append_fresh m src a

/-! ## The loop over `legacyDelegators` -/

theorem legacy_loop {F : Type} (src : GoMap) :
    ∀ st : MergeState F, (keys src).Nodup → (∀ a ∈ keys src, a ∉ keys st.mergedAccounts) →
      src.foldl legacyStep st =
        { st with mergedAccounts := st.mergedAccounts ++ src
                  allAddresses := st.allAddresses ++ keys src } := by
  induction src with
  | nil =>
    intro st _ _
    simp [keys]
  | cons e rest ih =>
    intro st hnd hdis
    simp only [keys, List.map_cons, List.nodup_cons] at hnd
    have he : e.1 ∉ keys st.mergedAccounts := hdis e.1 (by simp [keys])
    rw [List.foldl_cons, ih _ hnd.2]
    · simp [legacyStep, mapSet_of_not_mem _ _ _ he, keys]
    · intro a ha
      simp only [legacyStep, mapSet_of_not_mem _ _ _ he, keys, List.map_append, List.map_cons,
        List.map_nil, List.mem_append, List.mem_singleton, not_or]
      refine ⟨hdis a (by simp only [keys, List.map_cons, List.mem_cons]; exact Or.inr ha), ?_⟩
      rintro rfl
      exact hnd.1 ha

/-! ## The three loops in closed form -/

theorem copyFields_validators_self {F : Type} (r : AccountInfoWithStakeValues F) :
    copyFields validatorsFields r r = r := rfl

theorem copyFields_delegators_self {F : Type} (r : AccountInfoWithStakeValues F) :
    copyFields delegatorsFields r r = r := rfl

theorem copyFields_lkMex_self {F : Type} (r : AccountInfoWithStakeValues F) :
    copyFields lkMexFields r r = r := rfl

/-- One loop, with the heap described relative to the heap `h` at the start of
`mergeAccounts`: if the record behind the merged map is `R a p` before the loop,
it is `overlay fs h (R a p) (mapGet src a)` after it, and the records outside the
merged map are still those of `h`. -/
theorem stage {F : Type}
    (fs : List (AccountInfoWithStakeValues F → AccountInfoWithStakeValues F →
      AccountInfoWithStakeValues F))
    (hself : ∀ r, copyFields fs r r = r) (h : Heap F)
    (R : String → Ptr → Option (AccountInfoWithStakeValues F)) (src : GoMap)
    (st : MergeState F) (hnd : (keys src).Nodup)
    (hsrc : ∀ p ∈ ptrs src, (h p).isSome)
    (hmer : ∀ p ∈ ptrs st.mergedAccounts, (h p).isSome)
    (hdom : ∀ x, (st.heap x).isSome = (h x).isSome)
    (hsep : (ptrs st.mergedAccounts ++ ptrs src).Nodup)
    (hR : ∀ a p, mapGet st.mergedAccounts a = some p → st.heap p = R a p)
    (hframe : ∀ x, x ∉ ptrs st.mergedAccounts → st.heap x = h x)
    (hR0 : ∀ a p, a ∉ keys st.mergedAccounts → R a p = h p) :
    ∃ st', src.foldlM (foldSource fs) st = some st' ∧
      st'.mergedAccounts = addSource st.mergedAccounts src ∧
      st'.allAddresses = st.allAddresses ++ keys (freshEntries st.mergedAccounts src) ∧
      (∀ x, (st'.heap x).isSome = (h x).isSome) ∧
      (∀ a p, mapGet st'.mergedAccounts a = some p →
        st'.heap p = overlay fs h (R a p) (mapGet src a)) ∧
      (∀ x, x ∉ ptrs st'.mergedAccounts → st'.heap x = h x) := by
  obtain ⟨st', h1, h2, h3, h4, h5⟩ := foldSource_loop fs src st hnd
    (fun p hp => by rw [hdom]; exact hsrc p hp) (fun p hp => by rw [hdom]; exact hmer p hp)
  obtain ⟨h6, h7⟩ := h5 hsep
  have hdisj : ∀ x, x ∈ ptrs st.mergedAccounts → x ∈ ptrs src → False :=
    fun x hx hy => (List.nodup_append.1 hsep).2.2 hx hy
  have hov : ∀ (b : Option (AccountInfoWithStakeValues F)) (a : String),
      overlay fs st.heap b (mapGet src a) = overlay fs h b (mapGet src a) := by
    intro b a
    cases hq : mapGet src a with
    | none => rfl
    | some q =>
      simp only [overlay]
      rw [hframe q (fun hx => hdisj q hx (mapGet_mem_ptrs _ _ _ hq))]
  refine ⟨st', h1, h2, h3, fun x => by rw [h4, hdom], ?_, ?_⟩
  · intro a p hap
    rw [h2, mapGet_append_fresh] at hap
    cases hm : mapGet st.mergedAccounts a with
    | some p' =>
      rw [hm] at hap
      have hpp : p' = p := Option.some.inj hap
      subst hpp
      rw [h7 a p' hm, hov, hR a p' hm]
    | none =>
      rw [hm] at hap
      simp only [Option.orElse] at hap
      have hp : p ∉ ptrs st.mergedAccounts := fun hx => hdisj p hx (mapGet_mem_ptrs _ _ _ hap)
      rw [h6 p hp, hframe p hp, hap, hR0 a p ((mapGet_eq_none_iff _ _).1 hm)]
      obtain ⟨r, hr⟩ := Option.isSome_iff_exists.1 (hsrc p (mapGet_mem_ptrs _ _ _ hap))
      simp [overlay, hr, hself]
  · intro x hx
    have hx' : x ∉ ptrs st.mergedAccounts := by
      intro hxm
      apply hx
      rw [h2, ptrs_append]
      exact List.mem_append_left _ hxm
    rw [h6 x hx', hframe x hx']

/-! ## `mergeAccounts` in closed form -/

theorem mergeAccounts_unfold {F : Type} (h : Heap F) (l v d k : GoMap) :
    mergeAccounts h l v d k =
      ((v.foldlM (foldSource validatorsFields)
          (l.foldl legacyStep { heap := h, mergedAccounts := [], allAddresses := [] })).bind
        (fun st => (d.foldlM (foldSource delegatorsFields) st).bind
          (fun st => k.foldlM (foldSource lkMexFields) st))) := by
  have hv : (validatorsStep : MergeState F → String × Ptr → Option (MergeState F))
      = foldSource validatorsFields := by
    funext st e
    exact validatorsStep_eq st e
  have hd : (delegatorsStep : MergeState F → String × Ptr → Option (MergeState F))
      = foldSource delegatorsFields := by
    funext st e
    exact delegatorsStep_eq st e
  have hk : (lkMexStep : MergeState F → String × Ptr → Option (MergeState F))
      = foldSource lkMexFields := by
    funext st e
    exact lkMexStep_eq st e
  unfold mergeAccounts
  rw [hv, hd, hk]
  rfl

theorem wellFormed_ptrs {F : Type} {h : Heap F} {l v d k : GoMap}
    (wf : WellFormed h l v d k) :
    (∀ p ∈ ptrs l, (h p).isSome) ∧ (∀ p ∈ ptrs v, (h p).isSome) ∧
    (∀ p ∈ ptrs d, (h p).isSome) ∧ (∀ p ∈ ptrs k, (h p).isSome) := by
  obtain ⟨_, _, _, _, hp⟩ := wf
  refine ⟨fun p hx => hp p ?_, fun p hx => hp p ?_, fun p hx => hp p ?_, fun p hx => hp p ?_⟩
  · simp [hx]
  · simp [hx]
  · simp [hx]
  · simp [hx]

theorem ptrs_addSource_valid {F : Type} (h : Heap F) (m src : GoMap)
    (hm : ∀ p ∈ ptrs m, (h p).isSome) (hs : ∀ p ∈ ptrs src, (h p).isSome) :
    ∀ p ∈ ptrs (addSource m src), (h p).isSome := by
  intro p hp
  rcases List.mem_append.1 ((ptrs_addSource_sublist m src).subset hp) with hp | hp
  · exact hm p hp
  · exact hs p hp

/-- On well-formed sources `mergeAccounts` returns; the merged map and the
address list are given in closed form, and the heap holds a record where it
held one before. -/
theorem mergeAccounts_shape {F : Type} (h : Heap F) (l v d k : GoMap)
    (wf : WellFormed h l v d k) :
    ∃ st, mergeAccounts h l v d k = some st ∧
      st.mergedAccounts = mergedMap l v d k ∧
      st.allAddresses = keys (mergedMap l v d k) ∧
      (∀ x, (st.heap x).isSome = (h x).isSome) := by
  obtain ⟨hpl, hpv, hpd, hpk⟩ := wellFormed_ptrs wf
  obtain ⟨hnl, hnv, hnd, hnk, _⟩ := wf
  have h1 := legacy_loop (F := F) l { heap := h, mergedAccounts := [], allAddresses := [] }
    hnl (fun a _ => by simp [keys])
  simp only [List.nil_append] at h1
  obtain ⟨st2, a1, a2, a3, a4, _⟩ := foldSource_loop validatorsFields v
    ({ heap := h, mergedAccounts := l, allAddresses := keys l } : MergeState F) hnv hpv hpl
  have hm2 : st2.mergedAccounts = addSource l v := a2
  obtain ⟨st3, b1, b2, b3, b4, _⟩ := foldSource_loop delegatorsFields d st2 hnd
    (fun p hp => by rw [a4]; exact hpd p hp)
    (fun p hp => by rw [a4]; exact ptrs_addSource_valid h l v hpl hpv p (hm2 ▸ hp))
  have hm3 : st3.mergedAccounts = addSource (addSource l v) d := by
    rw [b2, hm2]
    rfl
  obtain ⟨st4, c1, c2, c3, c4, _⟩ := foldSource_loop lkMexFields k st3 hnk
    (fun p hp => by rw [b4, a4]; exact hpk p hp)
    (fun p hp => by
      rw [b4, a4]
      exact ptrs_addSource_valid h _ d (ptrs_addSource_valid h l v hpl hpv) hpd p (hm3 ▸ hp))
  refine ⟨st4, ?_, ?_, ?_, fun x => by rw [c4, b4, a4]⟩
  · rw [mergeAccounts_unfold, h1, a1]
    simp [Option.bind, b1, c1]
  · rw [c2, hm3]
    rfl
  · rw [c3, b3, a3, hm3, hm2]
    simp [mergedMap, addSource, keys_append]

/-- On well-formed sources whose entries have records of their own,
`mergeAccounts` returns, and the record behind every entry of the merged map is
given by `mergedRecord`; the records outside the merged map are unchanged. -/
theorem mergeAccounts_records {F : Type} (h : Heap F) (l v d k : GoMap)
    (wf : WellFormed h l v d k) (own : OwnRecords l v d k) :
    ∃ st, mergeAccounts h l v d k = some st ∧
      st.mergedAccounts = mergedMap l v d k ∧
      st.allAddresses = keys (mergedMap l v d k) ∧
      (∀ a p, mapGet st.mergedAccounts a = some p → st.heap p = mergedRecord h v d k a p) ∧
      (∀ x, x ∉ ptrs st.mergedAccounts → st.heap x = h x) := by
  obtain ⟨hpl, hpv, hpd, hpk⟩ := wellFormed_ptrs wf
  obtain ⟨hnl, hnv, hnd, hnk, _⟩ := wf
  have h1 := legacy_loop (F := F) l { heap := h, mergedAccounts := [], allAddresses := [] }
    hnl (fun a _ => by simp [keys])
  simp only [List.nil_append] at h1
  have own3 : ((ptrs l ++ ptrs v) ++ ptrs d).Nodup :=
    List.Nodup.sublist (List.sublist_append_left _ _) own
  have own2 : (ptrs l ++ ptrs v).Nodup :=
    List.Nodup.sublist (List.sublist_append_left _ _) own3
  have none_of_not_addSource : ∀ (m src : GoMap) (a : String),
      a ∉ keys (addSource m src) → mapGet src a = none := by
    intro m src a ha
    rw [mapGet_eq_none_iff]
    exact fun hx => ha ((mem_keys_addSource m src a).2 (Or.inr hx))
  obtain ⟨st2, a1, a2, a3, a4, a5, a6⟩ := stage validatorsFields copyFields_validators_self h
    (fun _ p => h p) v
    ({ heap := h, mergedAccounts := l, allAddresses := keys l } : MergeState F)
    hnv hpv hpl (fun _ => rfl) own2 (fun _ _ _ => rfl) (fun _ _ => rfl) (fun _ _ _ => rfl)
  simp only at a2 a3
  obtain ⟨st3, b1, b2, b3, b4, b5, b6⟩ := stage delegatorsFields copyFields_delegators_self h
    (fun a p => overlay validatorsFields h (h p) (mapGet v a)) d st2 hnd hpd
    (fun p hp => ptrs_addSource_valid h l v hpl hpv p (a2 ▸ hp)) a4
    (by
      rw [a2]
      exact List.Nodup.sublist
        (List.Sublist.append (ptrs_addSource_sublist l v) (List.Sublist.refl _)) own3)
    a5 a6
    (by
      intro a p ha
      rw [a2] at ha
      show overlay validatorsFields h (h p) (mapGet v a) = h p
      rw [none_of_not_addSource l v a ha]
      rfl)
  rw [a2] at b2
  obtain ⟨st4, c1, c2, c3, c4, c5, c6⟩ := stage lkMexFields copyFields_lkMex_self h
    (fun a p => overlay delegatorsFields h (overlay validatorsFields h (h p) (mapGet v a))
      (mapGet d a)) k st3 hnk hpk
    (fun p hp => ptrs_addSource_valid h _ d (ptrs_addSource_valid h l v hpl hpv) hpd p
      (b2 ▸ hp)) b4
    (by
      rw [b2]
      refine List.Nodup.sublist (List.Sublist.append ?_ (List.Sublist.refl _)) own
      exact (ptrs_addSource_sublist _ d).trans
        (List.Sublist.append (ptrs_addSource_sublist l v) (List.Sublist.refl _)))
    b5 b6
    (by
      intro a p ha
      rw [b2] at ha
      have ha' : a ∉ keys (addSource l v) :=
        fun hx => ha ((mem_keys_addSource _ d a).2 (Or.inl hx))
      show overlay delegatorsFields h (overlay validatorsFields h (h p) (mapGet v a))
        (mapGet d a) = h p
      rw [none_of_not_addSource _ d a ha, none_of_not_addSource l v a ha']
      rfl)
  rw [b2] at c2
  refine ⟨st4, ?_, c2, ?_, c5, c6⟩
  · rw [mergeAccounts_unfold, h1, a1]
    simp [Option.bind, b1, c1]
  · rw [c3, b3, a3, b2, a2]
    simp [mergedMap, addSource, keys_append]

theorem sourceRecord_isSome {F : Type} (h : Heap F) (m : GoMap) (a : String)
    (b : AccountInfoWithStakeValues F) (hm : ∀ q ∈ ptrs m, (h q).isSome) :
    ∃ s, sourceRecord h m a b = some s := by
  unfold sourceRecord
  cases hq : mapGet m a with
  | none => exact ⟨b, rfl⟩
  | some q => exact Option.isSome_iff_exists.1 (hm q (mapGet_mem_ptrs _ _ _ hq))

/-- The merged record field by field: address, legacy fields and totals of the
base record, the fields of each later source from `sourceRecord`. -/
theorem mergedRecord_fields {F : Type} (h : Heap F) (v d k : GoMap) (a : String) (p : Ptr)
    (b sv sd sk : AccountInfoWithStakeValues F) (hb : h p = some b)
    (hv : sourceRecord h v a b = some sv) (hd : sourceRecord h d a b = some sd)
    (hk : sourceRecord h k a b = some sk) :
    mergedRecord h v d k a p = some
      { Address := b.Address
        DelegationLegacyWaiting := b.DelegationLegacyWaiting
        DelegationLegacyActive := b.DelegationLegacyActive
        ValidatorsActive := sv.ValidatorsActive
        ValidatorsActiveNum := sv.ValidatorsActiveNum
        ValidatorTopUp := sv.ValidatorTopUp
        ValidatorTopUpNum := sv.ValidatorTopUpNum
        Delegation := sd.Delegation
        DelegationNum := sd.DelegationNum
        LKMEXStake := sk.LKMEXStake
        LKMEXStakeNum := sk.LKMEXStakeNum
        TotalStake := b.TotalStake
        TotalStakeNum := b.TotalStakeNum } := by
  unfold sourceRecord at hv hd hk
  unfold mergedRecord
  cases hqv : mapGet v a <;> cases hqd : mapGet d a <;> cases hqk : mapGet k a <;>
    simp only [hqv, hqd, hqk, Option.some.injEq] at hv hd hk <;>
    simp_all [overlay, copyFields, validatorsFields, delegatorsFields, lkMexFields]

theorem mapGet_mergedMap (l v d k : GoMap) (a : String) :
    mapGet (mergedMap l v d k) a =
      (((mapGet l a).orElse (fun _ => mapGet v a)).orElse (fun _ => mapGet d a)).orElse
        (fun _ => mapGet k a) := by
  unfold mergedMap
  rw [mapGet_addSource, mapGet_addSource, mapGet_addSource]

theorem mem_keys_mergedMap (l v d k : GoMap) (a : String) :
    a ∈ keys (mergedMap l v d k) ↔ a ∈ keys l ∨ a ∈ keys v ∨ a ∈ keys d ∨ a ∈ keys k := by
  unfold mergedMap
  rw [mem_keys_addSource, mem_keys_addSource, mem_keys_addSource]
  tauto

theorem keys_mergedMap (l v d k : GoMap) :
    keys (mergedMap l v d k) =
      keys l ++ (keys v).filter (fun a => decide (a ∉ keys l)) ++
        (keys d).filter (fun a => decide (a ∉ keys l ∧ a ∉ keys v)) ++
        (keys k).filter (fun a => decide (a ∉ keys l ∧ a ∉ keys v ∧ a ∉ keys d)) := by
  have h2 : ∀ a, decide (a ∉ keys (addSource l v)) = decide (a ∉ keys l ∧ a ∉ keys v) := by
    intro a
    simp [mem_keys_addSource]
  have h3 : ∀ a, decide (a ∉ keys (addSource (addSource l v) d))
      = decide (a ∉ keys l ∧ a ∉ keys v ∧ a ∉ keys d) := by
    intro a
    simp [mem_keys_addSource, and_assoc]
  unfold mergedMap
  have e : ∀ m src : GoMap,
      keys (addSource m src) = keys m ++ (keys src).filter (fun a => decide (a ∉ keys m)) := by
    intro m src
    unfold addSource
    rw [keys_append, keys_freshEntries]
  rw [e, e, e]
  congr 1
  · congr 1
    exact List.filter_congr (fun a _ => by rw [← e l v]; exact h2 a)
  · exact List.filter_congr (fun a _ => by
      simp only [← e l v]
      rw [← e (addSource l v) d]
      exact h3 a)

theorem keys_mergedMap_nodup (l v d k : GoMap) (hl : (keys l).Nodup) (hv : (keys v).Nodup)
    (hd : (keys d).Nodup) (hk : (keys k).Nodup) : (keys (mergedMap l v d k)).Nodup :=
  keys_nodup_addSource _ _ (keys_nodup_addSource _ _ (keys_nodup_addSource _ _ hl hv) hd) hk

theorem mem_ptrs_mergedMap (l v d k : GoMap) (p : Ptr) (hp : p ∈ ptrs (mergedMap l v d k)) :
    p ∈ ptrs l ++ ptrs v ++ ptrs d ++ ptrs k := by
  unfold mergedMap at hp
  have s1 := ptrs_addSource_sublist (addSource (addSource l v) d) k
  have s2 := ptrs_addSource_sublist (addSource l v) d
  have s3 := ptrs_addSource_sublist l v
  exact ((s1.trans (List.Sublist.append (s2.trans
    (List.Sublist.append s3 (List.Sublist.refl _))) (List.Sublist.refl _))).subset hp)

/-- Under the hypotheses of `mergeAccounts_records`, every address of a source
has an entry in the merged map, and its merged record is known field by
field. -/
theorem mergeAccounts_closed {F : Type} (h : Heap F) (l v d k : GoMap)
    (wf : WellFormed h l v d k) (own : OwnRecords l v d k) :
    ∃ st, mergeAccounts h l v d k = some st ∧
      st.mergedAccounts = mergedMap l v d k ∧
      st.allAddresses = keys (mergedMap l v d k) ∧
      ∀ a, a ∈ keys (mergedMap l v d k) →
        ∃ p b sv sd sk, mapGet (mergedMap l v d k) a = some p ∧ h p = some b ∧
          sourceRecord h v a b = some sv ∧ sourceRecord h d a b = some sd ∧
          sourceRecord h k a b = some sk ∧
          st.record a = some
            { Address := b.Address
              DelegationLegacyWaiting := b.DelegationLegacyWaiting
              DelegationLegacyActive := b.DelegationLegacyActive
              ValidatorsActive := sv.ValidatorsActive
              ValidatorsActiveNum := sv.ValidatorsActiveNum
              ValidatorTopUp := sv.ValidatorTopUp
              ValidatorTopUpNum := sv.ValidatorTopUpNum
              Delegation := sd.Delegation
              DelegationNum := sd.DelegationNum
              LKMEXStake := sk.LKMEXStake
              LKMEXStakeNum := sk.LKMEXStakeNum
              TotalStake := b.TotalStake
              TotalStakeNum := b.TotalStakeNum } := by
  obtain ⟨st, h1, h2, h3, h4, _⟩ := mergeAccounts_records h l v d k wf own
  obtain ⟨_, hpv, hpd, hpk⟩ := wellFormed_ptrs wf
  refine ⟨st, h1, h2, h3, ?_⟩
  intro a ha
  obtain ⟨p, hp⟩ := Option.isSome_iff_exists.1 ((mapGet_isSome_iff _ a).2 ha)
  have hpm : p ∈ ptrs l ++ ptrs v ++ ptrs d ++ ptrs k :=
    mem_ptrs_mergedMap l v d k p (mapGet_mem_ptrs _ _ _ hp)
  obtain ⟨b, hb⟩ := Option.isSome_iff_exists.1 (wf.2.2.2.2 p hpm)
  obtain ⟨sv, hsv⟩ := sourceRecord_isSome h v a b hpv
  obtain ⟨sd, hsd⟩ := sourceRecord_isSome h d a b hpd
  obtain ⟨sk, hsk⟩ := sourceRecord_isSome h k a b hpk
  refine ⟨p, b, sv, sd, sk, hp, hb, hsv, hsd, hsk, ?_⟩
  have hrec : st.record a = st.heap p := by
    simp [MergeState.record, h2, hp]
  rw [hrec, h4 a p (h2 ▸ hp)]
  exact mergedRecord_fields h v d k a p b sv sd sk hb hsv hsd hsk

/-! ## Claims on `mergeAccounts` -/

/-- C1: on four source maps `mergeAccounts` returns a merged mapping of which an
address is a key if and only if it is a key of at least one of the four
sources. -/
theorem mergeAccounts_key_iff {F : Type} (heap : Heap F)
    (legacyDelegators validators delegators lkMexAccountsWithStake : GoMap)
    (wf : WellFormed heap legacyDelegators validators delegators lkMexAccountsWithStake) :
    ∃ st, mergeAccounts heap legacyDelegators validators delegators lkMexAccountsWithStake
        = some st ∧
      ∀ a, a ∈ keys st.mergedAccounts ↔
        (a ∈ keys legacyDelegators ∨ a ∈ keys validators ∨ a ∈ keys delegators ∨
          a ∈ keys lkMexAccountsWithStake) := by
  obtain ⟨st, h1, h2, _, _⟩ := mergeAccounts_shape heap legacyDelegators validators delegators
    lkMexAccountsWithStake wf
  refine ⟨st, h1, fun a => ?_⟩
  rw [h2]
  exact mem_keys_mergedMap _ _ _ _ a

theorem mergeAccounts_key_iff_witness :
    WellFormed sampleHeap sampleLegacy sampleValidators sampleDelegators sampleLkMex ∧
    ∃ st, mergeAccounts sampleHeap sampleLegacy sampleValidators sampleDelegators sampleLkMex
        = some st ∧
      ∀ a, a ∈ keys st.mergedAccounts ↔
        (a ∈ keys sampleLegacy ∨ a ∈ keys sampleValidators ∨ a ∈ keys sampleDelegators ∨
          a ∈ keys sampleLkMex) :=
  ⟨by decide, mergeAccounts_key_iff sampleHeap sampleLegacy sampleValidators sampleDelegators
    sampleLkMex (by decide)⟩

/-- C2: the address list returned by `mergeAccounts` has no duplicate, it is as
long as the merged mapping has keys (the keys of the merged mapping are pairwise
distinct), and an address is in the list if and only if it is a key of the
merged mapping. -/
theorem mergeAccounts_addresses {F : Type} (heap : Heap F)
    (legacyDelegators validators delegators lkMexAccountsWithStake : GoMap)
    (wf : WellFormed heap legacyDelegators validators delegators lkMexAccountsWithStake) :
    ∃ st, mergeAccounts heap legacyDelegators validators delegators lkMexAccountsWithStake
        = some st ∧
      st.allAddresses.Nodup ∧ (keys st.mergedAccounts).Nodup ∧
      st.allAddresses.length = (keys st.mergedAccounts).length ∧
      ∀ a, a ∈ st.allAddresses ↔ a ∈ keys st.mergedAccounts := by
  obtain ⟨st, h1, h2, h3, _⟩ := mergeAccounts_shape heap legacyDelegators validators delegators
    lkMexAccountsWithStake wf
  have hn := keys_mergedMap_nodup legacyDelegators validators delegators
    lkMexAccountsWithStake wf.1 wf.2.1 wf.2.2.1 wf.2.2.2.1
  refine ⟨st, h1, ?_, ?_, ?_, ?_⟩
  · rw [h3]
    exact hn
  · rw [h2]
    exact hn
  · rw [h3, h2]
  · intro a
    rw [h3, h2]

theorem mergeAccounts_addresses_witness :
    WellFormed sampleHeap sampleLegacy sampleValidators sampleDelegators sampleLkMex ∧
    ∃ st, mergeAccounts sampleHeap sampleLegacy sampleValidators sampleDelegators sampleLkMex
        = some st ∧
      st.allAddresses.Nodup ∧ (keys st.mergedAccounts).Nodup ∧
      st.allAddresses.length = (keys st.mergedAccounts).length ∧
      ∀ a, a ∈ st.allAddresses ↔ a ∈ keys st.mergedAccounts :=
  ⟨by decide, mergeAccounts_addresses sampleHeap sampleLegacy sampleValidators sampleDelegators
    sampleLkMex (by decide)⟩

/-- C3: on four source maps whose entries have records of their own, the merged
record of an address carries the own fields of every source that has the
address, as that source's record gives them: the legacy balances of
`legacyDelegators[a]`, the validator balances and their numeric mirrors of
`validators[a]`, the delegation and its mirror of `delegators[a]`, the lkMex
stake and its mirror of `lkMexAccountsWithStake[a]`. -/
theorem mergeAccounts_own_fields {F : Type} (heap : Heap F)
    (legacyDelegators validators delegators lkMexAccountsWithStake : GoMap)
    (wf : WellFormed heap legacyDelegators validators delegators lkMexAccountsWithStake)
    (own : OwnRecords legacyDelegators validators delegators lkMexAccountsWithStake) :
    ∃ st, mergeAccounts heap legacyDelegators validators delegators lkMexAccountsWithStake
        = some st ∧
      (∀ a q s, mapGet legacyDelegators a = some q → heap q = some s →
        ∃ r, st.record a = some r ∧
          r.DelegationLegacyWaiting = s.DelegationLegacyWaiting ∧
          r.DelegationLegacyActive = s.DelegationLegacyActive) ∧
      (∀ a q s, mapGet validators a = some q → heap q = some s →
        ∃ r, st.record a = some r ∧
          r.ValidatorsActive = s.ValidatorsActive ∧
          r.ValidatorsActiveNum = s.ValidatorsActiveNum ∧
          r.ValidatorTopUp = s.ValidatorTopUp ∧
          r.ValidatorTopUpNum = s.ValidatorTopUpNum) ∧
      (∀ a q s, mapGet delegators a = some q → heap q = some s →
        ∃ r, st.record a = some r ∧
          r.Delegation = s.Delegation ∧ r.DelegationNum = s.DelegationNum) ∧
      (∀ a q s, mapGet lkMexAccountsWithStake a = some q → heap q = some s →
        ∃ r, st.record a = some r ∧
          r.LKMEXStake = s.LKMEXStake ∧ r.LKMEXStakeNum = s.LKMEXStakeNum) := by
  obtain ⟨st, h1, _, _, h4⟩ := mergeAccounts_closed heap legacyDelegators validators delegators
    lkMexAccountsWithStake wf own
  refine ⟨st, h1, ?_, ?_, ?_, ?_⟩
  · intro a q s hq hs
    obtain ⟨p, b, sv, sd, sk, hp, hb, _, _, _, hr⟩ :=
      h4 a ((mem_keys_mergedMap _ _ _ _ a).2 (Or.inl (mapGet_mem_keys _ _ _ hq)))
    have hpq : q = p := by
      simpa [mapGet_mergedMap, hq] using hp
    subst hpq
    have hbs : b = s := by
      rw [hb] at hs
      exact Option.some.inj hs
    subst hbs
    exact ⟨_, hr, rfl, rfl⟩
  · intro a q s hq hs
    obtain ⟨p, b, sv, sd, sk, _, _, hsv, _, _, hr⟩ :=
      h4 a ((mem_keys_mergedMap _ _ _ _ a).2 (Or.inr (Or.inl (mapGet_mem_keys _ _ _ hq))))
    have hss : sv = s := by
      simp only [sourceRecord, hq, hs] at hsv
      exact (Option.some.inj hsv).symm
    subst hss
    exact ⟨_, hr, rfl, rfl, rfl, rfl⟩
  · intro a q s hq hs
    obtain ⟨p, b, sv, sd, sk, _, _, _, hsd, _, hr⟩ :=
      h4 a ((mem_keys_mergedMap _ _ _ _ a).2
        (Or.inr (Or.inr (Or.inl (mapGet_mem_keys _ _ _ hq)))))
    have hss : sd = s := by
      simp only [sourceRecord, hq, hs] at hsd
      exact (Option.some.inj hsd).symm
    subst hss
    exact ⟨_, hr, rfl, rfl⟩
  · intro a q s hq hs
    obtain ⟨p, b, sv, sd, sk, _, _, _, _, hsk, hr⟩ :=
      h4 a ((mem_keys_mergedMap _ _ _ _ a).2
        (Or.inr (Or.inr (Or.inr (mapGet_mem_keys _ _ _ hq)))))
    have hss : sk = s := by
      simp only [sourceRecord, hq, hs] at hsk
      exact (Option.some.inj hsk).symm
    subst hss
    exact ⟨_, hr, rfl, rfl⟩

theorem mergeAccounts_own_fields_witness :
    WellFormed sampleHeap sampleLegacy sampleValidators sampleDelegators sampleLkMex ∧
    OwnRecords sampleLegacy sampleValidators sampleDelegators sampleLkMex ∧
    ∃ st, mergeAccounts sampleHeap sampleLegacy sampleValidators sampleDelegators sampleLkMex
        = some st ∧
      (∀ a q s, mapGet sampleLegacy a = some q → sampleHeap q = some s →
        ∃ r, st.record a = some r ∧
          r.DelegationLegacyWaiting = s.DelegationLegacyWaiting ∧
          r.DelegationLegacyActive = s.DelegationLegacyActive) ∧
      (∀ a q s, mapGet sampleValidators a = some q → sampleHeap q = some s →
        ∃ r, st.record a = some r ∧
          r.ValidatorsActive = s.ValidatorsActive ∧
          r.ValidatorsActiveNum = s.ValidatorsActiveNum ∧
          r.ValidatorTopUp = s.ValidatorTopUp ∧
          r.ValidatorTopUpNum = s.ValidatorTopUpNum) ∧
      (∀ a q s, mapGet sampleDelegators a = some q → sampleHeap q = some s →
        ∃ r, st.record a = some r ∧
          r.Delegation = s.Delegation ∧ r.DelegationNum = s.DelegationNum) ∧
      (∀ a q s, mapGet sampleLkMex a = some q → sampleHeap q = some s →
        ∃ r, st.record a = some r ∧
          r.LKMEXStake = s.LKMEXStake ∧ r.LKMEXStakeNum = s.LKMEXStakeNum) :=
  ⟨by decide, by decide, mergeAccounts_own_fields sampleHeap sampleLegacy sampleValidators
    sampleDelegators sampleLkMex (by decide) (by decide)⟩

/-- C4, as the code has it: on four source maps whose entries have records of
their own, the merged record of an address that is a key of exactly one source
is the record of that source, unchanged in every field; a field outside the
source's domain has the value the source's record gives it. -/
theorem mergeAccounts_single_source {F : Type} (heap : Heap F)
    (legacyDelegators validators delegators lkMexAccountsWithStake : GoMap)
    (wf : WellFormed heap legacyDelegators validators delegators lkMexAccountsWithStake)
    (own : OwnRecords legacyDelegators validators delegators lkMexAccountsWithStake) :
    ∃ st, mergeAccounts heap legacyDelegators validators delegators lkMexAccountsWithStake
        = some st ∧
      (∀ a q s, mapGet legacyDelegators a = some q → a ∉ keys validators →
        a ∉ keys delegators → a ∉ keys lkMexAccountsWithStake → heap q = some s →
        st.record a = some s) ∧
      (∀ a q s, a ∉ keys legacyDelegators → mapGet validators a = some q →
        a ∉ keys delegators → a ∉ keys lkMexAccountsWithStake → heap q = some s →
        st.record a = some s) ∧
      (∀ a q s, a ∉ keys legacyDelegators → a ∉ keys validators →
        mapGet delegators a = some q → a ∉ keys lkMexAccountsWithStake → heap q = some s →
        st.record a = some s) ∧
      (∀ a q s, a ∉ keys legacyDelegators → a ∉ keys validators → a ∉ keys delegators →
        mapGet lkMexAccountsWithStake a = some q → heap q = some s →
        st.record a = some s) := by
  obtain ⟨st, h1, _, _, h4⟩ := mergeAccounts_closed heap legacyDelegators validators delegators
    lkMexAccountsWithStake wf own
  have key : ∀ a q s, mapGet (mergedMap legacyDelegators validators delegators
      lkMexAccountsWithStake) a = some q → heap q = some s →
      sourceRecord heap validators a s = some s → sourceRecord heap delegators a s = some s →
      sourceRecord heap lkMexAccountsWithStake a s = some s → st.record a = some s := by
    intro a q s hq hs e1 e2 e3
    obtain ⟨p, b, sv, sd, sk, hp, hb, hsv, hsd, hsk, hr⟩ :=
      h4 a (mapGet_mem_keys _ _ _ hq)
    have hpq : q = p := by
      rw [hq] at hp
      exact Option.some.inj hp
    subst hpq
    have hbs : b = s := by
      rw [hb] at hs
      exact Option.some.inj hs
    subst hbs
    rw [e1] at hsv
    rw [e2] at hsd
    rw [e3] at hsk
    cases Option.some.inj hsv
    cases Option.some.inj hsd
    cases Option.some.inj hsk
    exact hr
  refine ⟨st, h1, ?_, ?_, ?_, ?_⟩
  · intro a q s hl hv hd hk hs
    rw [← mapGet_eq_none_iff] at hv hd hk
    exact key a q s (by simp [mapGet_mergedMap, hl]) hs (by simp [sourceRecord, hv])
      (by simp [sourceRecord, hd]) (by simp [sourceRecord, hk])
  · intro a q s hl hv hd hk hs
    rw [← mapGet_eq_none_iff] at hl hd hk
    exact key a q s (by simp [mapGet_mergedMap, hl, hv]) hs (by simp [sourceRecord, hv, hs])
      (by simp [sourceRecord, hd]) (by simp [sourceRecord, hk])
  · intro a q s hl hv hd hk hs
    rw [← mapGet_eq_none_iff] at hl hv hk
    exact key a q s (by simp [mapGet_mergedMap, hl, hv, hd]) hs (by simp [sourceRecord, hv])
      (by simp [sourceRecord, hd, hs]) (by simp [sourceRecord, hk])
  · intro a q s hl hv hd hk hs
    rw [← mapGet_eq_none_iff] at hl hv hd
    exact key a q s (by simp [mapGet_mergedMap, hl, hv, hd, hk]) hs
      (by simp [sourceRecord, hv]) (by simp [sourceRecord, hd])
      (by simp [sourceRecord, hk, hs])

theorem mergeAccounts_single_source_witness :
    WellFormed sampleHeap sampleLegacy sampleValidators sampleDelegators sampleLkMex ∧
    OwnRecords sampleLegacy sampleValidators sampleDelegators sampleLkMex ∧
    ∃ st, mergeAccounts sampleHeap sampleLegacy sampleValidators sampleDelegators sampleLkMex
        = some st ∧
      (∀ a q s, mapGet sampleLegacy a = some q → a ∉ keys sampleValidators →
        a ∉ keys sampleDelegators → a ∉ keys sampleLkMex → sampleHeap q = some s →
        st.record a = some s) ∧
      (∀ a q s, a ∉ keys sampleLegacy → mapGet sampleValidators a = some q →
        a ∉ keys sampleDelegators → a ∉ keys sampleLkMex → sampleHeap q = some s →
        st.record a = some s) ∧
      (∀ a q s, a ∉ keys sampleLegacy → a ∉ keys sampleValidators →
        mapGet sampleDelegators a = some q → a ∉ keys sampleLkMex → sampleHeap q = some s →
        st.record a = some s) ∧
      (∀ a q s, a ∉ keys sampleLegacy → a ∉ keys sampleValidators → a ∉ keys sampleDelegators →
        mapGet sampleLkMex a = some q → sampleHeap q = some s →
        st.record a = some s) :=
  ⟨by decide, by decide, mergeAccounts_single_source sampleHeap sampleLegacy sampleValidators
    sampleDelegators sampleLkMex (by decide) (by decide)⟩

/-- C4, as stated, fails: the address `A` is a key of the legacy source only,
its record there has the validator balance `7`, and the merged record of `A`
still has the validator balance `7`, not the default value. -/
theorem mergeAccounts_single_source_not_default :
    WellFormed legacyOnlyHeap [("A", 1)] [] [] [] ∧ OwnRecords [("A", 1)] [] [] [] ∧
    "A" ∈ keys [("A", 1)] ∧ "A" ∉ keys ([] : GoMap) ∧
    ∃ st, mergeAccounts legacyOnlyHeap [("A", 1)] [] [] [] = some st ∧
      ∃ r, st.record "A" = some r ∧ r.ValidatorsActive = "7" ∧ r.ValidatorsActive ≠ "" :=
  ⟨by decide, by decide, by decide, by decide,
    ⟨{ heap := legacyOnlyHeap, mergedAccounts := [("A", 1)], allAddresses := ["A"] }, rfl,
      ⟨_, rfl, rfl, by decide⟩⟩⟩

/-- C5: the address list returned by `mergeAccounts` is the keys of
`legacyDelegators`, then the keys of `validators` that are no key of
`legacyDelegators`, then the keys of `delegators` that are a key of neither
earlier source, then the keys of `lkMexAccountsWithStake` that are a key of none
of the three earlier sources, each part in the order its map was visited. -/
theorem mergeAccounts_address_order {F : Type} (heap : Heap F)
    (legacyDelegators validators delegators lkMexAccountsWithStake : GoMap)
    (wf : WellFormed heap legacyDelegators validators delegators lkMexAccountsWithStake) :
    ∃ st, mergeAccounts heap legacyDelegators validators delegators lkMexAccountsWithStake
        = some st ∧
      st.allAddresses =
        keys legacyDelegators ++
        (keys validators).filter (fun a => decide (a ∉ keys legacyDelegators)) ++
        (keys delegators).filter
          (fun a => decide (a ∉ keys legacyDelegators ∧ a ∉ keys validators)) ++
        (keys lkMexAccountsWithStake).filter
          (fun a => decide (a ∉ keys legacyDelegators ∧ a ∉ keys validators ∧
            a ∉ keys delegators)) := by
  obtain ⟨st, h1, _, h3, _⟩ := mergeAccounts_shape heap legacyDelegators validators delegators
    lkMexAccountsWithStake wf
  exact ⟨st, h1, h3.trans (keys_mergedMap _ _ _ _)⟩

theorem mergeAccounts_address_order_witness :
    WellFormed sampleHeap sampleLegacy sampleValidators sampleDelegators sampleLkMex ∧
    ∃ st, mergeAccounts sampleHeap sampleLegacy sampleValidators sampleDelegators sampleLkMex
        = some st ∧
      st.allAddresses =
        keys sampleLegacy ++
        (keys sampleValidators).filter (fun a => decide (a ∉ keys sampleLegacy)) ++
        (keys sampleDelegators).filter
          (fun a => decide (a ∉ keys sampleLegacy ∧ a ∉ keys sampleValidators)) ++
        (keys sampleLkMex).filter
          (fun a => decide (a ∉ keys sampleLegacy ∧ a ∉ keys sampleValidators ∧
            a ∉ keys sampleDelegators)) :=
  ⟨by decide, mergeAccounts_address_order sampleHeap sampleLegacy sampleValidators
    sampleDelegators sampleLkMex (by decide)⟩

/-! ## Parsing and rendering of integers -/

theorem digitValue_ofNat (d : Nat) (hd : d < 10) :
    digitValue (Char.ofNat (d + '0'.toNat)) = some d := by
  interval_cases d <;> decide

theorem ofNat_ne_sign (d : Nat) (hd : d < 10) :
    Char.ofNat (d + '0'.toNat) ≠ '-' ∧ Char.ofNat (d + '0'.toNat) ≠ '+' := by
  interval_cases d <;> decide

theorem natDigits_spec : ∀ (fuel n : Nat), n < 10 ^ (fuel + 1) →
    natDigits (fuel + 1) n ≠ [] ∧
    (natDigits (fuel + 1) n).foldlM
      (fun acc c => (digitValue c).map (fun d => acc * 10 + d)) 0 = some n ∧
    ∀ c, (natDigits (fuel + 1) n).head? = some c → c ≠ '-' ∧ c ≠ '+' := by
  intro fuel
  induction fuel with
  | zero =>
    intro n hn
    have h10 : n < 10 := by simpa using hn
    simp only [natDigits, h10, if_true]
    refine ⟨by simp, ?_, ?_⟩
    · simp only [List.foldlM_cons, List.foldlM_nil, digitValue_ofNat n h10]
      simp
    · intro c hc
      simp only [List.head?_cons, Option.some.injEq] at hc
      subst hc
      exact ofNat_ne_sign n h10
  | succ fuel ih =>
    intro n hn
    by_cases h10 : n < 10
    · rw [natDigits]
      simp only [h10, if_true]
      refine ⟨by simp, ?_, ?_⟩
      · simp only [List.foldlM_cons, List.foldlM_nil, digitValue_ofNat n h10]
        simp
      · intro c hc
        simp only [List.head?_cons, Option.some.injEq] at hc
        subst hc
        exact ofNat_ne_sign n h10
    · rw [natDigits]
      simp only [h10, if_false]
      have hdiv : n / 10 < 10 ^ (fuel + 1) := by
        rw [Nat.div_lt_iff_lt_mul (by norm_num)]
        rw [pow_succ] at hn
        exact hn
      obtain ⟨i1, i2, i3⟩ := ih (n / 10) hdiv
      refine ⟨by simp, ?_, ?_⟩
      · rw [List.foldlM_append, i2]
        simp only [List.foldlM_cons, List.foldlM_nil,
          digitValue_ofNat (n % 10) (Nat.mod_lt _ (by norm_num))]
        have : n / 10 * 10 + n % 10 = n := by omega
        simp [this]
      · intro c hc
        cases hds : natDigits (fuel + 1) (n / 10) with
        | nil => exact absurd hds i1
        | cons x xs =>
          rw [hds] at hc
          simp only [List.cons_append, List.head?_cons, Option.some.injEq] at hc
          exact i3 c (by rw [hds]; simp [hc])

theorem bigSetString_unsigned (cs : List Char)
    (h : ∀ c, cs.head? = some c → c ≠ '-' ∧ c ≠ '+') :
    bigSetString (String.mk cs) = (scanDigits cs).map (fun n => (n : Int)) := by
  unfold bigSetString
  cases cs with
  | nil => rfl
  | cons c cs =>
    obtain ⟨h1, h2⟩ := h c rfl
    simp only [String.toList]
    split
    · rename_i heq
      simp only [List.cons.injEq] at heq
      exact absurd heq.1 h1
    · rename_i heq
      simp only [List.cons.injEq] at heq
      exact absurd heq.1 h2
    · rfl

theorem lt_ten_pow (n : Nat) : n < 10 ^ (n + 1) :=
  lt_trans (Nat.lt_pow_self (by norm_num) n)
    (Nat.pow_lt_pow_right (by norm_num) (Nat.lt_succ_self n))

/-- The rendering of an integer parses back to that integer. -/
theorem bigSetString_bigString (z : Int) : bigSetString (bigString z) = some z := by
  cases z with
  | ofNat n =>
    obtain ⟨h1, h2, h3⟩ := natDigits_spec n n (lt_ten_pow n)
    unfold bigString
    simp only
    rw [bigSetString_unsigned _ h3]
    simp [scanDigits, h1, h2]
  | negSucc n =>
    obtain ⟨h1, h2, _⟩ := natDigits_spec (n + 1) (n + 1) (lt_ten_pow (n + 1))
    unfold bigString
    simp only
    unfold bigSetString
    simp only [String.toList]
    simp [scanDigits, h1, h2, Int.negSucc_eq]

/-! ## Claims on `computeTotalBalance` -/

theorem balance_foldl_fst {F : Type} (fl : Float64Ops F) (cbf : String → F)
    (bs : List String) :
    ∀ acc : Int × F, (bs.foldl (balanceStep fl cbf) acc).1
      = acc.1 + (bs.filterMap bigSetString).sum := by
  induction bs with
  | nil =>
    intro acc
    simp
  | cons b bs ih =>
    intro acc
    rw [List.foldl_cons, ih]
    cases hb : bigSetString b with
    | none => simp [balanceStep, hb, List.filterMap_cons]
    | some z => simp [balanceStep, hb, List.filterMap_cons, add_assoc]

theorem computeTotalBalance_fst {F : Type} (fl : Float64Ops F) (cbf : String → F)
    (bs : List String) :
    (computeTotalBalance fl cbf bs).1 = bigString ((bs.filterMap bigSetString).sum) := by
  unfold computeTotalBalance
  by_cases h : bs.length = 0
  · have hb : bs = [] := List.length_eq_zero.1 h
    subst hb
    rfl
  · simp only [h, if_false]
    rw [balance_foldl_fst]
    simp

/-- C6: the first result of `computeTotalBalance` is the decimal rendering of
the exact integer sum of the elements that parse as base-10 integers, and it
parses back to that sum; elements that do not parse contribute nothing, so a
sequence without a parsable element yields `"0"`, and so does `["0", "0"]`. -/
theorem computeTotalBalance_exact_sum {F : Type} (fl : Float64Ops F)
    (ComputeBalanceAsFloat : String → F) (bs : List String) :
    (computeTotalBalance fl ComputeBalanceAsFloat bs).1
        = bigString ((bs.filterMap bigSetString).sum) ∧
      bigSetString (computeTotalBalance fl ComputeBalanceAsFloat bs).1
        = some ((bs.filterMap bigSetString).sum) ∧
      ((∀ b ∈ bs, bigSetString b = none) →
        (computeTotalBalance fl ComputeBalanceAsFloat bs).1 = "0") ∧
      (computeTotalBalance fl ComputeBalanceAsFloat ["0", "0"]).1 = "0" := by
  refine ⟨computeTotalBalance_fst fl _ bs, ?_, ?_, ?_⟩
  · rw [computeTotalBalance_fst]
    exact bigSetString_bigString _
  · intro h
    rw [computeTotalBalance_fst]
    have : bs.filterMap bigSetString = [] := by
      rw [List.filterMap_eq_nil_iff]
      exact h
    rw [this]
    rfl
  · rw [computeTotalBalance_fst]
    decide

theorem computeTotalBalance_exact_sum_witness :
    (∀ b ∈ ["abc", "", "1x"], bigSetString b = none) ∧
      (computeTotalBalance intOps (fun _ => 0) ["abc", "", "1x"]).1 = "0" :=
  ⟨by decide,
    (computeTotalBalance_exact_sum intOps (fun _ => 0) ["abc", "", "1x"]).2.2.1 (by decide)⟩

/-- C7: with the balance-to-float conversion of the spec and exact `float64`
sums of small integers, `computeTotalBalance` on `["100", "200", "abc", "300"]`
returns the exact total `"600"` and the approximate total `600.0`; the entry
`"abc"` is skipped. -/
theorem computeTotalBalance_skips_malformed {F : Type} (fl : Float64Ops F) (ofInt : Int → F)
    (hex : ExactOnIntegers fl ofInt) :
    computeTotalBalance fl (ComputeBalanceAsFloat fl ofInt) ["100", "200", "abc", "300"]
      = ("600", ofInt 600) ∧ bigSetString "abc" = none := by
  have h100 : bigSetString "100" = some 100 := by decide
  have h200 : bigSetString "200" = some 200 := by decide
  have h300 : bigSetString "300" = some 300 := by decide
  have habc : bigSetString "abc" = none := by decide
  have hs : bigString 600 = "600" := by decide
  obtain ⟨hz, hadd⟩ := hex
  have e1 : fl.add (ofInt 0) (ofInt 100) = ofInt 100 := by
    have := hadd 0 100 (by norm_num) (by norm_num) (by norm_num)
    simpa using this
  have e2 : fl.add (ofInt 100) (ofInt 200) = ofInt 300 := by
    have := hadd 100 200 (by norm_num) (by norm_num) (by norm_num)
    simpa using this
  have e3 : fl.add (ofInt 300) (ofInt 300) = ofInt 600 := by
    have := hadd 300 300 (by norm_num) (by norm_num) (by norm_num)
    simpa using this
  refine ⟨?_, habc⟩
  simp [computeTotalBalance, balanceStep, ComputeBalanceAsFloat, h100, h200, h300, habc, hz,
    e1, e2, e3, hs]

theorem computeTotalBalance_skips_malformed_witness :
    ExactOnIntegers intOps (fun z => z) ∧
    computeTotalBalance intOps (ComputeBalanceAsFloat intOps (fun z => z))
      ["100", "200", "abc", "300"] = ("600", 600) ∧ bigSetString "abc" = none :=
  ⟨⟨rfl, fun _ _ _ _ _ => rfl⟩,
    computeTotalBalance_skips_malformed intOps (fun z => z) ⟨rfl, fun _ _ _ _ _ => rfl⟩⟩

/-- C8: `computeTotalBalance` on the empty sequence returns `("0", 0.0)`. -/
theorem computeTotalBalance_empty {F : Type} (fl : Float64Ops F)
    (ComputeBalanceAsFloat : String → F) :
    computeTotalBalance fl ComputeBalanceAsFloat [] = ("0", fl.zero) := rfl

/-- C9: the exact total of `computeTotalBalance` is the same for a sequence and
for any permutation of it. -/
theorem computeTotalBalance_perm {F : Type} (fl : Float64Ops F)
    (ComputeBalanceAsFloat : String → F) (bs bs' : List String) (hp : bs'.Perm bs) :
    (computeTotalBalance fl ComputeBalanceAsFloat bs').1
      = (computeTotalBalance fl ComputeBalanceAsFloat bs).1 := by
  rw [computeTotalBalance_fst, computeTotalBalance_fst]
  exact congrArg bigString (List.Perm.sum_eq (List.Perm.filterMap _ hp))

theorem computeTotalBalance_perm_witness :
    ["300", "abc", "100"].Perm ["100", "300", "abc"] ∧
    (computeTotalBalance intOps (fun _ => 0) ["300", "abc", "100"]).1
      = (computeTotalBalance intOps (fun _ => 0) ["100", "300", "abc"]).1 :=
  ⟨by decide, computeTotalBalance_perm intOps (fun _ => 0) ["100", "300", "abc"]
    ["300", "abc", "100"] (by decide)⟩

/-! ## `calculateTotalStakeForAccounts` -/

theorem withTotals_idem {F : Type} (fl : Float64Ops F) (cbf : String → F)
    (r : AccountInfoWithStakeValues F) :
    withTotals fl cbf (withTotals fl cbf r) = withTotals fl cbf r := rfl

/-- The loop of `calculateTotalStakeForAccounts` runs to its end when every
pointer of the map holds a record; it replaces exactly the records behind the
map by their `withTotals`. -/
theorem calculateTotalStake_spec {F : Type} (fl : Float64Ops F) (cbf : String → F)
    (accounts : GoMap) :
    ∀ heap : Heap F, (∀ p ∈ ptrs accounts, (heap p).isSome) →
      ∃ heap', calculateTotalStakeForAccounts fl cbf heap accounts = some heap' ∧
        ∀ x, heap' x = if x ∈ ptrs accounts then (heap x).map (withTotals fl cbf)
          else heap x := by
  induction accounts with
  | nil =>
    intro heap _
    exact ⟨heap, rfl, fun x => by simp [ptrs]⟩
  | cons e rest ih =>
    intro heap hv
    obtain ⟨k, p⟩ := e
    obtain ⟨r, hr⟩ := Option.isSome_iff_exists.1 (hv p (by simp [ptrs]))
    have hstep : totalStakeStep fl cbf heap (k, p)
        = some (Function.update heap p (some (withTotals fl cbf r))) := by
      simp [totalStakeStep, hr]
    obtain ⟨heap', h1, h2⟩ := ih (Function.update heap p (some (withTotals fl cbf r)))
      (by
        intro q hq
        by_cases hqp : q = p
        · subst hqp
          simp
        · simp only [Function.update, hqp, dite_false]
          exact hv q (by simp only [ptrs, List.map_cons, List.mem_cons]; exact Or.inr hq))
    have hmem : ∀ x, x ∈ ptrs ((k, p) :: rest) ↔ x = p ∨ x ∈ ptrs rest := by
      intro x
      simp [ptrs]
    refine ⟨heap', ?_, ?_⟩
    · unfold calculateTotalStakeForAccounts at h1 ⊢
      simp [List.foldlM, hstep, h1]
    · intro x
      rw [h2 x]
      by_cases hxp : x = p
      · subst hxp
        rw [if_pos ((hmem x).2 (Or.inl rfl)), hr]
        by_cases hx : x ∈ ptrs rest
        · rw [if_pos hx]
          simp [withTotals_idem]
        · rw [if_neg hx]
          simp
      · have hu : Function.update heap p (some (withTotals fl cbf r)) x = heap x := by
          simp [Function.update, hxp]
        rw [hu]
        by_cases hx : x ∈ ptrs rest
        · rw [if_pos hx, if_pos ((hmem x).2 (Or.inr hx))]
        · rw [if_neg hx, if_neg (fun h => (((hmem x).1 h).elim hxp hx))]

/-! ## Claims on `GetAllAccountsWithStake` -/

/-- When the four providers succeed on well-formed sources,
`GetAllAccountsWithStake` returns the merged map and the address list of
`mergeAccounts` without error, and the record of every address is the merged
record with its totals recomputed. -/
theorem GetAllAccountsWithStake_run {ε F : Type} (fl : Float64Ops F)
    (ComputeBalanceAsFloat : String → F) (rangeOrder : GoMap → GoMap) (heap : Heap F)
    (legacyDelegators validators delegators lkMexAccountsWithStake : GoMap)
    (hrange : ∀ m, (rangeOrder m).Perm m)
    (wf : WellFormed heap legacyDelegators validators delegators lkMexAccountsWithStake) :
    ∃ st res,
      mergeAccounts heap legacyDelegators validators delegators lkMexAccountsWithStake
        = some st ∧
      GetAllAccountsWithStake (ε := ε) fl ComputeBalanceAsFloat rangeOrder heap
        (.ok legacyDelegators) (.ok validators) (.ok delegators) (.ok lkMexAccountsWithStake)
        = some res ∧
      res.err = none ∧ res.allAccounts = some st.mergedAccounts ∧
      res.allAddresses = some st.allAddresses ∧
      ∀ a, a ∈ keys st.mergedAccounts →
        ∃ m r, st.record a = some m ∧ res.record a = some r ∧
          r = withTotals fl ComputeBalanceAsFloat m ∧
          r.TotalStake = (computeTotalBalance fl ComputeBalanceAsFloat
            [m.DelegationLegacyWaiting, m.DelegationLegacyActive, m.ValidatorsActive,
             m.ValidatorTopUp, m.Delegation]).1 := by
  obtain ⟨st, h1, h2, _, h4⟩ := mergeAccounts_shape heap legacyDelegators validators
    delegators lkMexAccountsWithStake wf
  have hvalid : ∀ p ∈ ptrs st.mergedAccounts, (st.heap p).isSome := by
    intro p hp
    rw [h4]
    exact wf.2.2.2.2 p (mem_ptrs_mergedMap _ _ _ _ p (h2 ▸ hp))
  have hptrs : ∀ p, p ∈ ptrs (rangeOrder st.mergedAccounts) ↔ p ∈ ptrs st.mergedAccounts :=
    fun p => ((hrange st.mergedAccounts).map Prod.snd).mem_iff
  obtain ⟨heap', c1, c2⟩ := calculateTotalStake_spec fl ComputeBalanceAsFloat
    (rangeOrder st.mergedAccounts) st.heap (fun p hp => hvalid p ((hptrs p).1 hp))
  refine ⟨st, { heap := heap', allAccounts := some st.mergedAccounts,
                allAddresses := some st.allAddresses, err := none }, h1, ?_, rfl, rfl, rfl, ?_⟩
  · simp [GetAllAccountsWithStake, h1, c1]
  · intro a ha
    obtain ⟨p, hp⟩ := Option.isSome_iff_exists.1 ((mapGet_isSome_iff _ a).2 ha)
    have hpm : p ∈ ptrs st.mergedAccounts := mapGet_mem_ptrs _ _ _ hp
    obtain ⟨m, hm⟩ := Option.isSome_iff_exists.1 (hvalid p hpm)
    refine ⟨m, withTotals fl ComputeBalanceAsFloat m, ?_, ?_, rfl, rfl⟩
    · simp [MergeState.record, hp, hm]
    · simp [AccountsWithStake.record, hp, c2 p, (hptrs p).2 hpm, hm]

/-- C10: when the four providers succeed on well-formed sources,
`GetAllAccountsWithStake` returns the merged map of `mergeAccounts` without
error, and the record of every address is the merged record with its totals
recomputed: `TotalStake` is the exact total `computeTotalBalance` gives for the
legacy-waiting, legacy-active, validator-active, validator-top-up and delegation
balances of the record `mergeAccounts` ended with. On the sample with `A` in the
legacy source (legacy-active `50`) and in the validators (validator-active `25`)
the result has the single record of `A`, with `TotalStake` `75`. -/
theorem GetAllAccountsWithStake_totalStake {ε F : Type} (fl : Float64Ops F)
    (ComputeBalanceAsFloat : String → F) (rangeOrder : GoMap → GoMap) (heap : Heap F)
    (legacyDelegators validators delegators lkMexAccountsWithStake : GoMap)
    (hrange : ∀ m, (rangeOrder m).Perm m)
    (wf : WellFormed heap legacyDelegators validators delegators lkMexAccountsWithStake) :
    (∃ st res,
      mergeAccounts heap legacyDelegators validators delegators lkMexAccountsWithStake
        = some st ∧
      GetAllAccountsWithStake (ε := ε) fl ComputeBalanceAsFloat rangeOrder heap
        (.ok legacyDelegators) (.ok validators) (.ok delegators) (.ok lkMexAccountsWithStake)
        = some res ∧
      res.err = none ∧ res.allAccounts = some st.mergedAccounts ∧
      res.allAddresses = some st.allAddresses ∧
      ∀ a, a ∈ keys st.mergedAccounts →
        ∃ m r, st.record a = some m ∧ res.record a = some r ∧
          r = withTotals fl ComputeBalanceAsFloat m ∧
          r.TotalStake = (computeTotalBalance fl ComputeBalanceAsFloat
            [m.DelegationLegacyWaiting, m.DelegationLegacyActive, m.ValidatorsActive,
             m.ValidatorTopUp, m.Delegation]).1) ∧
    (∃ res, GetAllAccountsWithStake (ε := String) intOps (fun _ => 0) (fun m => m) sampleHeap
        (.ok [("A", 1)]) (.ok [("A", 2)]) (.ok []) (.ok []) = some res ∧
      res.err = none ∧ res.allAccounts = some [("A", 1)] ∧ res.allAddresses = some ["A"] ∧
      (res.record "A").map (fun r => r.TotalStake) = some "75") := by
  constructor
  · exact GetAllAccountsWithStake_run fl ComputeBalanceAsFloat rangeOrder heap legacyDelegators
      validators delegators lkMexAccountsWithStake hrange wf
  · exact ⟨_, rfl, rfl, rfl, rfl, by decide⟩

theorem GetAllAccountsWithStake_totalStake_witness :
    (∀ m : GoMap, (List.reverse m).Perm m) ∧
    WellFormed sampleHeap sampleLegacy sampleValidators sampleDelegators sampleLkMex ∧
    ∃ st res,
      mergeAccounts sampleHeap sampleLegacy sampleValidators sampleDelegators sampleLkMex
        = some st ∧
      GetAllAccountsWithStake (ε := String) intOps (fun _ => 0) List.reverse sampleHeap
        (.ok sampleLegacy) (.ok sampleValidators) (.ok sampleDelegators) (.ok sampleLkMex)
        = some res ∧
      res.err = none ∧ res.allAccounts = some st.mergedAccounts ∧
      res.allAddresses = some st.allAddresses ∧
      ∀ a, a ∈ keys st.mergedAccounts →
        ∃ m r, st.record a = some m ∧ res.record a = some r ∧
          r = withTotals intOps (fun _ => 0) m ∧
          r.TotalStake = (computeTotalBalance intOps (fun _ => 0)
            [m.DelegationLegacyWaiting, m.DelegationLegacyActive, m.ValidatorsActive,
             m.ValidatorTopUp, m.Delegation]).1 :=
  ⟨fun m => List.reverse_perm m, by decide,
    (GetAllAccountsWithStake_totalStake (ε := String) intOps (fun _ => 0) List.reverse sampleHeap
      sampleLegacy sampleValidators sampleDelegators sampleLkMex
      (fun m => List.reverse_perm m) (by decide)).1⟩

/-- C11, as the code has it: for every record `calculateTotalStakeForAccounts`
finalizes, `TotalStake` is the rendering of the exact sum of those of the five
balances legacy-waiting, legacy-active, validator-active, validator-top-up and
delegation that parse; the locked-token stake `LKMEXStake` is not in the
summation set, whatever its value. -/
theorem calculateTotalStake_five_components {F : Type} (fl : Float64Ops F)
    (ComputeBalanceAsFloat : String → F) (heap : Heap F) (accounts : GoMap)
    (hvalid : ∀ p ∈ ptrs accounts, (heap p).isSome) :
    ∃ heap', calculateTotalStakeForAccounts fl ComputeBalanceAsFloat heap accounts
        = some heap' ∧
      ∀ a p r, mapGet accounts a = some p → heap p = some r →
        ∃ r', heap' p = some r' ∧
          r'.TotalStake = bigString
            (([r.DelegationLegacyWaiting, r.DelegationLegacyActive, r.ValidatorsActive,
               r.ValidatorTopUp, r.Delegation].filterMap bigSetString).sum) ∧
          r'.LKMEXStake = r.LKMEXStake := by
  obtain ⟨heap', h1, h2⟩ := calculateTotalStake_spec fl ComputeBalanceAsFloat accounts heap
    hvalid
  refine ⟨heap', h1, ?_⟩
  intro a p r hp hr
  refine ⟨withTotals fl ComputeBalanceAsFloat r, ?_, ?_, rfl⟩
  · rw [h2 p, if_pos (mapGet_mem_ptrs _ _ _ hp), hr]
    rfl
  · exact computeTotalBalance_fst fl ComputeBalanceAsFloat _

theorem calculateTotalStake_five_components_witness :
    (∀ p ∈ ptrs [("C", 1)], (lkMexStakeHeap p).isSome) ∧
    ∃ heap', calculateTotalStakeForAccounts intOps (fun _ => 0) lkMexStakeHeap [("C", 1)]
        = some heap' ∧
      ∀ a p r, mapGet [("C", 1)] a = some p → lkMexStakeHeap p = some r →
        ∃ r', heap' p = some r' ∧
          r'.TotalStake = bigString
            (([r.DelegationLegacyWaiting, r.DelegationLegacyActive, r.ValidatorsActive,
               r.ValidatorTopUp, r.Delegation].filterMap bigSetString).sum) ∧
          r'.LKMEXStake = r.LKMEXStake :=
  ⟨by decide, calculateTotalStake_five_components intOps (fun _ => 0) lkMexStakeHeap
    [("C", 1)] (by decide)⟩

/-- C11, as stated, fails: a record with delegation `3` and locked-token stake
`11` is finalized with `TotalStake` `3`, while the sum with the locked-token
stake included is `14`. -/
theorem calculateTotalStake_excludes_lkMex :
    ∃ heap' r', calculateTotalStakeForAccounts intOps (fun _ => 0) lkMexStakeHeap [("C", 1)]
        = some heap' ∧
      heap' 1 = some r' ∧ r'.Delegation = "3" ∧ r'.LKMEXStake = "11" ∧
      r'.TotalStake = "3" ∧
      (computeTotalBalance intOps (fun _ => 0)
        [r'.DelegationLegacyWaiting, r'.DelegationLegacyActive, r'.ValidatorsActive,
         r'.ValidatorTopUp, r'.Delegation, r'.LKMEXStake]).1 = "14" ∧
      r'.TotalStake ≠ "14" :=
  ⟨_, _, rfl, rfl, rfl, rfl, by decide, by decide, by decide⟩

/-- C12: `GetAllAccountsWithStake` queries the providers in the order legacy,
validators, delegators, lkMex; at the first provider that fails it returns a nil
mapping, a nil address list and that provider's error, unmodified; a returned
result carries an error if and only if some provider failed; when all four
succeed on well-formed sources it returns without error. -/
theorem GetAllAccountsWithStake_errors {ε F : Type} (fl : Float64Ops F)
    (ComputeBalanceAsFloat : String → F) (rangeOrder : GoMap → GoMap) (heap : Heap F)
    (pl pv pd pk : Except ε GoMap) :
    (∀ e, pl = .error e →
      GetAllAccountsWithStake fl ComputeBalanceAsFloat rangeOrder heap pl pv pd pk
        = some { heap := heap, allAccounts := none, allAddresses := none, err := some e }) ∧
    (∀ l e, pl = .ok l → pv = .error e →
      GetAllAccountsWithStake fl ComputeBalanceAsFloat rangeOrder heap pl pv pd pk
        = some { heap := heap, allAccounts := none, allAddresses := none, err := some e }) ∧
    (∀ l v e, pl = .ok l → pv = .ok v → pd = .error e →
      GetAllAccountsWithStake fl ComputeBalanceAsFloat rangeOrder heap pl pv pd pk
        = some { heap := heap, allAccounts := none, allAddresses := none, err := some e }) ∧
    (∀ l v d e, pl = .ok l → pv = .ok v → pd = .ok d → pk = .error e →
      GetAllAccountsWithStake fl ComputeBalanceAsFloat rangeOrder heap pl pv pd pk
        = some { heap := heap, allAccounts := none, allAddresses := none, err := some e }) ∧
    (∀ res, GetAllAccountsWithStake fl ComputeBalanceAsFloat rangeOrder heap pl pv pd pk
        = some res →
      (res.err.isSome ↔
        ((∃ e, pl = .error e) ∨ (∃ e, pv = .error e) ∨ (∃ e, pd = .error e) ∨
          (∃ e, pk = .error e)))) ∧
    (∀ l v d k, pl = .ok l → pv = .ok v → pd = .ok d → pk = .ok k →
      (∀ m, (rangeOrder m).Perm m) → WellFormed heap l v d k →
      ∃ res, GetAllAccountsWithStake fl ComputeBalanceAsFloat rangeOrder heap pl pv pd pk
          = some res ∧
        res.err = none ∧ res.allAccounts.isSome ∧ res.allAddresses.isSome) := by
  refine ⟨?_, ?_, ?_, ?_, ?_, ?_⟩
  · rintro e rfl
    rfl
  · rintro l e rfl rfl
    rfl
  · rintro l v e rfl rfl rfl
    rfl
  · rintro l v d e rfl rfl rfl rfl
    rfl
  · intro res hres
    cases pl with
    | error e =>
      simp only [GetAllAccountsWithStake, Option.some.injEq] at hres
      subst hres
      simp
    | ok l =>
      cases pv with
      | error e =>
        simp only [GetAllAccountsWithStake, Option.some.injEq] at hres
        subst hres
        simp
      | ok v =>
        cases pd with
        | error e =>
          simp only [GetAllAccountsWithStake, Option.some.injEq] at hres
          subst hres
          simp
        | ok d =>
          cases pk with
          | error e =>
            simp only [GetAllAccountsWithStake, Option.some.injEq] at hres
            subst hres
            simp
          | ok k =>
            simp only [GetAllAccountsWithStake] at hres
            cases hm : mergeAccounts heap l v d k with
            | none => simp [hm] at hres
            | some st =>
              simp only [hm] at hres
              cases hc : calculateTotalStakeForAccounts fl ComputeBalanceAsFloat st.heap
                  (rangeOrder st.mergedAccounts) with
              | none => simp [hc] at hres
              | some heap' =>
                simp only [hc, Option.some.injEq] at hres
                subst hres
                simp
  · rintro l v d k rfl rfl rfl rfl hrange wf
    obtain ⟨st, res, _, h2, h3, h4, h5, _⟩ :=
      GetAllAccountsWithStake_run (ε := ε) fl ComputeBalanceAsFloat rangeOrder heap
        l v d k hrange wf
    exact ⟨res, h2, h3, by simp [h4], by simp [h5]⟩

theorem GetAllAccountsWithStake_errors_witness :
    ((Except.ok sampleLegacy : Except String GoMap) = .ok sampleLegacy ∧
      (Except.error "validators down" : Except String GoMap) = .error "validators down" ∧
      GetAllAccountsWithStake intOps (fun _ => 0) List.reverse sampleHeap
        (.ok sampleLegacy) (.error "validators down") (.ok sampleDelegators) (.ok sampleLkMex)
        = some { heap := sampleHeap, allAccounts := none, allAddresses := none,
                 err := some "validators down" }) ∧
    ((∀ m : GoMap, (List.reverse m).Perm m) ∧
      WellFormed sampleHeap sampleLegacy sampleValidators sampleDelegators sampleLkMex ∧
      ∃ res, GetAllAccountsWithStake (ε := String) intOps (fun _ => 0) List.reverse sampleHeap
          (.ok sampleLegacy) (.ok sampleValidators) (.ok sampleDelegators) (.ok sampleLkMex)
          = some res ∧
        res.err = none ∧ res.allAccounts.isSome ∧ res.allAddresses.isSome) :=
  ⟨⟨rfl, rfl,
    (GetAllAccountsWithStake_errors intOps (fun _ => 0) List.reverse sampleHeap
      (.ok sampleLegacy) (.error "validators down") (.ok sampleDelegators)
      (.ok sampleLkMex)).2.1 sampleLegacy "validators down" rfl rfl⟩,
   ⟨fun m => List.reverse_perm m, by decide,
    (GetAllAccountsWithStake_errors (ε := String) intOps (fun _ => 0) List.reverse sampleHeap
      (.ok sampleLegacy) (.ok sampleValidators) (.ok sampleDelegators)
      (.ok sampleLkMex)).2.2.2.2.2 sampleLegacy sampleValidators sampleDelegators sampleLkMex
      rfl rfl rfl rfl (fun m => List.reverse_perm m) (by decide)⟩⟩

/-! ## Claims on `ComputeClonedAccountsIndex` -/

/-- C13: when the status call succeeds and the response has a non-empty `Error`
field `e`, `ComputeClonedAccountsIndex` returns the empty string as name and the
error whose message is `"cannot compute accounts index "` followed by `e`. -/
theorem ComputeClonedAccountsIndex_status_error {ε : Type} (accountsIndex : String)
    (CallGetRestEndPoint : String → GenericAPIResponse → GenericAPIResponse × Option ε)
    (gjsonGet : String → String → Option String) (resp : GenericAPIResponse)
    (hcall : CallGetRestEndPoint pathNodeStatusMeta { Data := "", Error := "" } = (resp, none))
    (herr : resp.Error ≠ "") :
    ComputeClonedAccountsIndex accountsIndex CallGetRestEndPoint gjsonGet
      = ("", some (.errorf ("cannot compute accounts index " ++ resp.Error))) := by
  unfold ComputeClonedAccountsIndex
  simp only [hcall]
  rw [if_pos herr]

theorem ComputeClonedAccountsIndex_status_error_witness :
    ((fun (_ : String) (r : GenericAPIResponse) =>
        (({ r with Error := "boom" } : GenericAPIResponse), (none : Option String)))
      pathNodeStatusMeta { Data := "", Error := "" }
        = ({ Data := "", Error := "boom" }, none)) ∧
    ("boom" ≠ "") ∧
    ComputeClonedAccountsIndex (ε := String) "accounts"
        (fun _ r => ({ r with Error := "boom" }, none)) (fun _ _ => none)
      = ("", some (.errorf "cannot compute accounts index boom")) :=
  ⟨rfl, by decide,
    ComputeClonedAccountsIndex_status_error (ε := String) "accounts"
      (fun _ r => ({ r with Error := "boom" }, none)) (fun _ _ => none)
      { Data := "", Error := "boom" } rfl (by decide)⟩

/-- C14: let the status call give the response `resp` and the error `err`.
`ComputeClonedAccountsIndex` returns without error if and only if `err` is nil
and `resp.Error` is empty; an error of the call is returned as it is, with the
empty name; on success the name is the base index name, an underscore and the
extracted epoch, and when the extraction finds nothing the name is the base
index name followed by the underscore. -/
theorem ComputeClonedAccountsIndex_result {ε : Type} (accountsIndex : String)
    (CallGetRestEndPoint : String → GenericAPIResponse → GenericAPIResponse × Option ε)
    (gjsonGet : String → String → Option String) (resp : GenericAPIResponse)
    (err : Option ε)
    (hcall : CallGetRestEndPoint pathNodeStatusMeta { Data := "", Error := "" } = (resp, err)) :
    ((ComputeClonedAccountsIndex accountsIndex CallGetRestEndPoint gjsonGet).2 = none ↔
      (err = none ∧ resp.Error = "")) ∧
    (∀ e, err = some e →
      ComputeClonedAccountsIndex accountsIndex CallGetRestEndPoint gjsonGet
        = ("", some (.transport e))) ∧
    (∀ epoch, err = none → resp.Error = "" →
      gjsonGet resp.Data "status.erd_epoch_number" = some epoch →
      ComputeClonedAccountsIndex accountsIndex CallGetRestEndPoint gjsonGet
        = (accountsIndex ++ "_" ++ epoch, none)) ∧
    (err = none → resp.Error = "" →
      gjsonGet resp.Data "status.erd_epoch_number" = none →
      ComputeClonedAccountsIndex accountsIndex CallGetRestEndPoint gjsonGet
        = (accountsIndex ++ "_", none)) := by
  unfold ComputeClonedAccountsIndex
  simp only [hcall]
  refine ⟨?_, ?_, ?_, ?_⟩
  · cases err with
    | some e => simp
    | none =>
      by_cases he : resp.Error = ""
      · simp [he]
      · simp [he]
  · rintro e rfl
    rfl
  · rintro epoch rfl he hg
    simp [he, hg]
  · rintro rfl he hg
    simp [he, hg]

theorem ComputeClonedAccountsIndex_result_witness :
    ((fun (_ : String) (r : GenericAPIResponse) =>
        (({ r with Data := "{}" } : GenericAPIResponse), (none : Option String)))
      pathNodeStatusMeta { Data := "", Error := "" }
        = ({ Data := "{}", Error := "" }, none)) ∧
    ComputeClonedAccountsIndex (ε := String) "accounts"
        (fun _ r => ({ r with Data := "{}" }, none)) (fun _ _ => some "7")
      = ("accounts_7", none) ∧
    ComputeClonedAccountsIndex (ε := String) "accounts"
        (fun _ r => ({ r with Data := "{}" }, none)) (fun _ _ => none)
      = ("accounts_", none) :=
  ⟨rfl,
    (ComputeClonedAccountsIndex_result (ε := String) "accounts"
      (fun _ r => ({ r with Data := "{}" }, none)) (fun _ _ => some "7")
      { Data := "{}", Error := "" } none rfl).2.2.1 "7" rfl rfl rfl,
    (ComputeClonedAccountsIndex_result (ε := String) "accounts"
      (fun _ r => ({ r with Data := "{}" }, none)) (fun _ _ => none)
      { Data := "{}", Error := "" } none rfl).2.2.2 rfl rfl rfl⟩

/-! ## Further claims on `mergeAccounts` -/

theorem mapGet_mergedMap_firstEntry (l v d k : GoMap) (a : String) :
    mapGet (mergedMap l v d k) a = firstEntry l v d k a := by
  rw [mapGet_mergedMap]
  unfold firstEntry
  cases mapGet l a <;> cases mapGet v a <;> cases mapGet d a <;> rfl

/-- C15: on four empty sources `mergeAccounts` returns an empty merged mapping
and an empty address list. -/
theorem mergeAccounts_empty {F : Type} (heap : Heap F) :
    ∃ st, mergeAccounts heap [] [] [] [] = some st ∧
      st.mergedAccounts = [] ∧ st.allAddresses = [] ∧ st.heap = heap :=
  ⟨{ heap := heap, mergedAccounts := [], allAddresses := [] }, rfl, rfl, rfl, rfl⟩

/-- C16: on four source maps whose entries have records of their own, let `p`
be the entry of the first source that has the address `a` and `b` the record
behind it. The merged record of `a` has the address, the legacy balances and the
totals of `b`; it has the validator fields of `b` unless `validators` is a later
source that has `a`, the delegation fields of `b` unless `delegators` is a later
source that has `a`, and the lkMex fields of `b` unless
`lkMexAccountsWithStake` is a later source that has `a`. -/
theorem mergeAccounts_frame {F : Type} (heap : Heap F)
    (legacyDelegators validators delegators lkMexAccountsWithStake : GoMap)
    (wf : WellFormed heap legacyDelegators validators delegators lkMexAccountsWithStake)
    (own : OwnRecords legacyDelegators validators delegators lkMexAccountsWithStake) :
    ∃ st, mergeAccounts heap legacyDelegators validators delegators lkMexAccountsWithStake
        = some st ∧
      ∀ a p b,
        firstEntry legacyDelegators validators delegators lkMexAccountsWithStake a = some p →
        heap p = some b →
        ∃ r, st.record a = some r ∧
          r.Address = b.Address ∧
          r.DelegationLegacyWaiting = b.DelegationLegacyWaiting ∧
          r.DelegationLegacyActive = b.DelegationLegacyActive ∧
          r.TotalStake = b.TotalStake ∧ r.TotalStakeNum = b.TotalStakeNum ∧
          (¬ (a ∈ keys legacyDelegators ∧ a ∈ keys validators) →
            r.ValidatorsActive = b.ValidatorsActive ∧
            r.ValidatorsActiveNum = b.ValidatorsActiveNum ∧
            r.ValidatorTopUp = b.ValidatorTopUp ∧
            r.ValidatorTopUpNum = b.ValidatorTopUpNum) ∧
          (¬ ((a ∈ keys legacyDelegators ∨ a ∈ keys validators) ∧ a ∈ keys delegators) →
            r.Delegation = b.Delegation ∧ r.DelegationNum = b.DelegationNum) ∧
          (¬ ((a ∈ keys legacyDelegators ∨ a ∈ keys validators ∨ a ∈ keys delegators) ∧
              a ∈ keys lkMexAccountsWithStake) →
            r.LKMEXStake = b.LKMEXStake ∧ r.LKMEXStakeNum = b.LKMEXStakeNum) := by
  obtain ⟨st, h1, _, _, h4⟩ := mergeAccounts_closed heap legacyDelegators validators delegators
    lkMexAccountsWithStake wf own
  refine ⟨st, h1, ?_⟩
  intro a p b hfirst hb
  have hget : mapGet (mergedMap legacyDelegators validators delegators
      lkMexAccountsWithStake) a = some p := by
    rw [mapGet_mergedMap_firstEntry]
    exact hfirst
  obtain ⟨p', b', sv, sd, sk, hp', hb', hsv, hsd, hsk, hr⟩ := h4 a (mapGet_mem_keys _ _ _ hget)
  have hpp : p' = p := by
    rw [hget] at hp'
    exact (Option.some.inj hp').symm
  subst hpp
  have hbb : b' = b := by
    rw [hb'] at hb
    exact Option.some.inj hb
  subst hbb
  refine ⟨_, hr, rfl, rfl, rfl, rfl, rfl, ?_, ?_, ?_⟩
  · intro hnot
    have hsvb : sv = b' := by
      cases hv : mapGet validators a with
      | none =>
        simp only [sourceRecord, hv, Option.some.injEq] at hsv
        exact hsv.symm
      | some q =>
        have hl : mapGet legacyDelegators a = none := by
          rw [mapGet_eq_none_iff]
          exact fun hx => hnot ⟨hx, mapGet_mem_keys _ _ _ hv⟩
        simp only [firstEntry, hl, hv, Option.some.injEq] at hfirst
        subst hfirst
        simp only [sourceRecord, hv, hb', Option.some.injEq] at hsv
        exact hsv.symm
    subst hsvb
    exact ⟨rfl, rfl, rfl, rfl⟩
  · intro hnot
    have hsdb : sd = b' := by
      cases hd : mapGet delegators a with
      | none =>
        simp only [sourceRecord, hd, Option.some.injEq] at hsd
        exact hsd.symm
      | some q =>
        have hmem := mapGet_mem_keys _ _ _ hd
        have hl : mapGet legacyDelegators a = none := by
          rw [mapGet_eq_none_iff]
          exact fun hx => hnot ⟨Or.inl hx, hmem⟩
        have hv : mapGet validators a = none := by
          rw [mapGet_eq_none_iff]
          exact fun hx => hnot ⟨Or.inr hx, hmem⟩
        simp only [firstEntry, hl, hv, hd, Option.some.injEq] at hfirst
        subst hfirst
        simp only [sourceRecord, hd, hb', Option.some.injEq] at hsd
        exact hsd.symm
    subst hsdb
    exact ⟨rfl, rfl⟩
  · intro hnot
    have hskb : sk = b' := by
      cases hk : mapGet lkMexAccountsWithStake a with
      | none =>
        simp only [sourceRecord, hk, Option.some.injEq] at hsk
        exact hsk.symm
      | some q =>
        have hmem := mapGet_mem_keys _ _ _ hk
        have hl : mapGet legacyDelegators a = none := by
          rw [mapGet_eq_none_iff]
          exact fun hx => hnot ⟨Or.inl hx, hmem⟩
        have hv : mapGet validators a = none := by
          rw [mapGet_eq_none_iff]
          exact fun hx => hnot ⟨Or.inr (Or.inl hx), hmem⟩
        have hd : mapGet delegators a = none := by
          rw [mapGet_eq_none_iff]
          exact fun hx => hnot ⟨Or.inr (Or.inr hx), hmem⟩
        simp only [firstEntry, hl, hv, hd, hk, Option.some.injEq] at hfirst
        subst hfirst
        simp only [sourceRecord, hk, hb', Option.some.injEq] at hsk
        exact hsk.symm
    subst hskb
    exact ⟨rfl, rfl⟩

theorem mergeAccounts_frame_witness :
    WellFormed sampleHeap sampleLegacy sampleValidators sampleDelegators sampleLkMex ∧
    OwnRecords sampleLegacy sampleValidators sampleDelegators sampleLkMex ∧
    ∃ st, mergeAccounts sampleHeap sampleLegacy sampleValidators sampleDelegators sampleLkMex
        = some st ∧
      ∀ a p b,
        firstEntry sampleLegacy sampleValidators sampleDelegators sampleLkMex a = some p →
        sampleHeap p = some b →
        ∃ r, st.record a = some r ∧
          r.Address = b.Address ∧
          r.DelegationLegacyWaiting = b.DelegationLegacyWaiting ∧
          r.DelegationLegacyActive = b.DelegationLegacyActive ∧
          r.TotalStake = b.TotalStake ∧ r.TotalStakeNum = b.TotalStakeNum ∧
          (¬ (a ∈ keys sampleLegacy ∧ a ∈ keys sampleValidators) →
            r.ValidatorsActive = b.ValidatorsActive ∧
            r.ValidatorsActiveNum = b.ValidatorsActiveNum ∧
            r.ValidatorTopUp = b.ValidatorTopUp ∧
            r.ValidatorTopUpNum = b.ValidatorTopUpNum) ∧
          (¬ ((a ∈ keys sampleLegacy ∨ a ∈ keys sampleValidators) ∧
              a ∈ keys sampleDelegators) →
            r.Delegation = b.Delegation ∧ r.DelegationNum = b.DelegationNum) ∧
          (¬ ((a ∈ keys sampleLegacy ∨ a ∈ keys sampleValidators ∨
              a ∈ keys sampleDelegators) ∧ a ∈ keys sampleLkMex) →
            r.LKMEXStake = b.LKMEXStake ∧ r.LKMEXStakeNum = b.LKMEXStakeNum) :=
  ⟨by decide, by decide, mergeAccounts_frame sampleHeap sampleLegacy sampleValidators
    sampleDelegators sampleLkMex (by decide) (by decide)⟩

/-! ## Further claims on `calculateTotalStakeForAccounts` -/

theorem withTotals_sameComponents {F : Type} (fl : Float64Ops F) (cbf : String → F)
    (r1 r2 : AccountInfoWithStakeValues F) (h : SameComponents r1 r2) :
    withTotals fl cbf r1 = withTotals fl cbf r2 := by
  unfold SameComponents at h
  rw [h]
  rfl

/-- C17: take two account mappings with the same keys whose records agree on
every field but `TotalStake` and `TotalStakeNum`. After
`calculateTotalStakeForAccounts` the two mappings hold the same record for every
address: the totals written do not depend on the totals held before. -/
theorem calculateTotalStake_overwrites {F : Type} (fl : Float64Ops F)
    (ComputeBalanceAsFloat : String → F) (heap1 heap2 : Heap F) (accounts1 accounts2 : GoMap)
    (hvalid1 : ∀ p ∈ ptrs accounts1, (heap1 p).isSome)
    (hvalid2 : ∀ p ∈ ptrs accounts2, (heap2 p).isSome)
    (hkeys : ∀ a, a ∈ keys accounts1 ↔ a ∈ keys accounts2)
    (hagree : ∀ a p1 p2 r1 r2, mapGet accounts1 a = some p1 → mapGet accounts2 a = some p2 →
      heap1 p1 = some r1 → heap2 p2 = some r2 → SameComponents r1 r2) :
    ∃ heap1' heap2',
      calculateTotalStakeForAccounts fl ComputeBalanceAsFloat heap1 accounts1 = some heap1' ∧
      calculateTotalStakeForAccounts fl ComputeBalanceAsFloat heap2 accounts2 = some heap2' ∧
      ∀ a, (mapGet accounts1 a).bind heap1' = (mapGet accounts2 a).bind heap2' := by
  obtain ⟨heap1', a1, a2⟩ := calculateTotalStake_spec fl ComputeBalanceAsFloat accounts1 heap1
    hvalid1
  obtain ⟨heap2', b1, b2⟩ := calculateTotalStake_spec fl ComputeBalanceAsFloat accounts2 heap2
    hvalid2
  refine ⟨heap1', heap2', a1, b1, ?_⟩
  intro a
  cases h1 : mapGet accounts1 a with
  | none =>
    have h2 : mapGet accounts2 a = none := by
      rw [mapGet_eq_none_iff, ← hkeys]
      exact (mapGet_eq_none_iff _ _).1 h1
    rw [h2]
    rfl
  | some p1 =>
    have hk2 : a ∈ keys accounts2 := (hkeys a).1 (mapGet_mem_keys _ _ _ h1)
    obtain ⟨p2, h2⟩ := Option.isSome_iff_exists.1 ((mapGet_isSome_iff _ a).2 hk2)
    have hm1 := mapGet_mem_ptrs _ _ _ h1
    have hm2 := mapGet_mem_ptrs _ _ _ h2
    obtain ⟨r1, hr1⟩ := Option.isSome_iff_exists.1 (hvalid1 p1 hm1)
    obtain ⟨r2, hr2⟩ := Option.isSome_iff_exists.1 (hvalid2 p2 hm2)
    rw [h2]
    simp only [Option.bind]
    rw [a2 p1, b2 p2, if_pos hm1, if_pos hm2, hr1, hr2]
    simp only [Option.map]
    rw [withTotals_sameComponents fl ComputeBalanceAsFloat r1 r2
      (hagree a p1 p2 r1 r2 h1 h2 hr1 hr2)]

/-- C19: `calculateTotalStakeForAccounts` leaves the map as it is and changes
the records in `TotalStake` and `TotalStakeNum` only: every pointer that held a
record holds afterwards a record with the same address, balances and numeric
mirrors, and the other pointers still hold none. -/
theorem calculateTotalStake_frame {F : Type} (fl : Float64Ops F)
    (ComputeBalanceAsFloat : String → F) (heap : Heap F) (accounts : GoMap)
    (hvalid : ∀ p ∈ ptrs accounts, (heap p).isSome) :
    ∃ heap', calculateTotalStakeForAccounts fl ComputeBalanceAsFloat heap accounts
        = some heap' ∧
      (∀ x r, heap x = some r → ∃ r', heap' x = some r' ∧ SameComponents r r') ∧
      (∀ x, heap x = none → heap' x = none) ∧
      (∀ a r, (mapGet accounts a).bind heap = some r →
        ∃ r', (mapGet accounts a).bind heap' = some r' ∧ SameComponents r r') := by
  obtain ⟨heap', h1, h2⟩ := calculateTotalStake_spec fl ComputeBalanceAsFloat accounts heap
    hvalid
  have hrec : ∀ x r, heap x = some r → ∃ r', heap' x = some r' ∧ SameComponents r r' := by
    intro x r hr
    rw [h2 x, hr]
    by_cases hx : x ∈ ptrs accounts
    · rw [if_pos hx]
      exact ⟨withTotals fl ComputeBalanceAsFloat r, rfl, rfl⟩
    · rw [if_neg hx]
      exact ⟨r, rfl, rfl⟩
  refine ⟨heap', h1, hrec, ?_, ?_⟩
  · intro x hx
    rw [h2 x, hx]
    simp
  · intro a r hr
    cases hp : mapGet accounts a with
    | none => simp [hp] at hr
    | some p =>
      rw [hp] at hr
      exact hrec p r hr

/-! ## Further claims on `computeTotalBalance` -/

/-- C20: the exact total of `computeTotalBalance` parses as a base-10 integer,
and the exact total of a concatenation is the exact total of the two-element
sequence of the exact totals of the parts. -/
theorem computeTotalBalance_append {F : Type} (fl : Float64Ops F)
    (ComputeBalanceAsFloat : String → F) (xs ys : List String) :
    (∃ z, bigSetString (computeTotalBalance fl ComputeBalanceAsFloat xs).1 = some z) ∧
    (computeTotalBalance fl ComputeBalanceAsFloat (xs ++ ys)).1
      = (computeTotalBalance fl ComputeBalanceAsFloat
          [(computeTotalBalance fl ComputeBalanceAsFloat xs).1,
           (computeTotalBalance fl ComputeBalanceAsFloat ys).1]).1 := by
  constructor
  · rw [computeTotalBalance_fst]
    exact ⟨_, bigSetString_bigString _⟩
  · rw [computeTotalBalance_fst fl ComputeBalanceAsFloat (xs ++ ys),
      computeTotalBalance_fst fl ComputeBalanceAsFloat [_, _],
      computeTotalBalance_fst fl ComputeBalanceAsFloat xs,
      computeTotalBalance_fst fl ComputeBalanceAsFloat ys]
    simp [List.filterMap_cons, bigSetString_bigString, List.filterMap_append]

theorem calculateTotalStake_overwrites_witness :
    (∀ p ∈ ptrs sampleLegacy, (sampleHeap p).isSome) ∧
    (∀ p ∈ ptrs sampleLegacy, (staleTotalsHeap p).isSome) ∧
    (∀ a, a ∈ keys sampleLegacy ↔ a ∈ keys sampleLegacy) ∧
    ∃ heap1' heap2',
      calculateTotalStakeForAccounts intOps (fun _ => 0) sampleHeap sampleLegacy
        = some heap1' ∧
      calculateTotalStakeForAccounts intOps (fun _ => 0) staleTotalsHeap sampleLegacy
        = some heap2' ∧
      ∀ a, (mapGet sampleLegacy a).bind heap1' = (mapGet sampleLegacy a).bind heap2' :=
  ⟨by decide, by decide, fun _ => Iff.rfl,
    calculateTotalStake_overwrites intOps (fun _ => 0) sampleHeap staleTotalsHeap sampleLegacy
      sampleLegacy (by decide) (by decide) (fun _ => Iff.rfl)
      (by
        intro a p1 p2 r1 r2 h1 h2 hr1 hr2
        have e1 : p1 = 1 := by
          simp only [sampleLegacy, mapGet] at h1
          split at h1
          · exact (Option.some.inj h1).symm
          · exact absurd h1 (by simp)
        have e2 : p2 = 1 := by
          simp only [sampleLegacy, mapGet] at h2
          split at h2
          · exact (Option.some.inj h2).symm
          · exact absurd h2 (by simp)
        subst e1
        subst e2
        simp only [sampleHeap, if_true, Option.some.injEq] at hr1
        simp only [staleTotalsHeap, if_true, Option.some.injEq] at hr2
        subst hr1
        subst hr2
        rfl)⟩

theorem calculateTotalStake_frame_witness :
    (∀ p ∈ ptrs sampleLegacy, (sampleHeap p).isSome) ∧
    ∃ heap', calculateTotalStakeForAccounts intOps (fun _ => 0) sampleHeap sampleLegacy
        = some heap' ∧
      (∀ x r, sampleHeap x = some r → ∃ r', heap' x = some r' ∧ SameComponents r r') ∧
      (∀ x, sampleHeap x = none → heap' x = none) ∧
      (∀ a r, (mapGet sampleLegacy a).bind sampleHeap = some r →
        ∃ r', (mapGet sampleLegacy a).bind heap' = some r' ∧ SameComponents r r') :=
  ⟨by decide, calculateTotalStake_frame intOps (fun _ => 0) sampleHeap sampleLegacy
    (by decide)⟩

/-! ## Independence of the iteration order -/

theorem mapGet_perm (l l' : GoMap) (a : String) (hp : l'.Perm l) (hn : (keys l).Nodup) :
    mapGet l' a = mapGet l a := by
  have hn' : (keys l').Nodup := ((hp.map Prod.fst).nodup_iff).2 hn
  cases h : mapGet l a with
  | none =>
    rw [mapGet_eq_none_iff] at h ⊢
    exact fun hx => h (((hp.map Prod.fst).mem_iff).1 hx)
  | some p =>
    exact mapGet_of_mem l' a p hn' ((hp.mem_iff).2 (mapGet_mem l a p h))

theorem mem_keys_perm (l l' : GoMap) (a : String) (hp : l'.Perm l) :
    a ∈ keys l' ↔ a ∈ keys l :=
  (hp.map Prod.fst).mem_iff

/-- The merged record of every address in closed form. -/
theorem mergeAccounts_record {F : Type} (h : Heap F) (l v d k : GoMap)
    (wf : WellFormed h l v d k) (own : OwnRecords l v d k) :
    ∃ st, mergeAccounts h l v d k = some st ∧
      st.mergedAccounts = mergedMap l v d k ∧
      st.allAddresses = keys l ++ validatorsSegment l v ++ delegatorsSegment l v d ++
        lkMexSegment l v d k ∧
      ∀ a, st.record a = (firstEntry l v d k a).bind (fun p => mergedRecord h v d k a p) := by
  obtain ⟨st, h1, h2, h3, h4, _⟩ := mergeAccounts_records h l v d k wf own
  refine ⟨st, h1, h2, h3.trans (keys_mergedMap l v d k), ?_⟩
  intro a
  unfold MergeState.record
  rw [← mapGet_mergedMap_firstEntry, ← h2]
  cases hp : mapGet st.mergedAccounts a with
  | none => rfl
  | some p => exact h4 a p hp

theorem mergedRecord_perm {F : Type} (h : Heap F) (v d k v' d' k' : GoMap) (a : String)
    (p : Ptr) (hv : mapGet v' a = mapGet v a) (hd : mapGet d' a = mapGet d a)
    (hk : mapGet k' a = mapGet k a) :
    mergedRecord h v' d' k' a p = mergedRecord h v d k a p := by
  unfold mergedRecord
  rw [hv, hd, hk]

/-- C18: take two enumerations of the entries of the same four source maps,
whose entries have records of their own. `mergeAccounts` returns on both, the
two merged mappings have the same keys and hold the same record for every
address, and the two address lists are permutations of each other, segment by
segment: their legacy, validators, delegators and lkMex segments hold the same
addresses. -/
theorem mergeAccounts_order_independent {F : Type} (heap : Heap F)
    (l v d k l' v' d' k' : GoMap)
    (wf : WellFormed heap l v d k) (own : OwnRecords l v d k)
    (hl : l'.Perm l) (hv : v'.Perm v) (hd : d'.Perm d) (hk : k'.Perm k) :
    ∃ st st', mergeAccounts heap l v d k = some st ∧
      mergeAccounts heap l' v' d' k' = some st' ∧
      (∀ a, a ∈ keys st'.mergedAccounts ↔ a ∈ keys st.mergedAccounts) ∧
      (∀ a, st'.record a = st.record a) ∧
      st'.allAddresses.Perm st.allAddresses ∧
      st.allAddresses = keys l ++ validatorsSegment l v ++ delegatorsSegment l v d ++
        lkMexSegment l v d k ∧
      st'.allAddresses = keys l' ++ validatorsSegment l' v' ++ delegatorsSegment l' v' d' ++
        lkMexSegment l' v' d' k' ∧
      (keys l').Perm (keys l) ∧
      (validatorsSegment l' v').Perm (validatorsSegment l v) ∧
      (delegatorsSegment l' v' d').Perm (delegatorsSegment l v d) ∧
      (lkMexSegment l' v' d' k').Perm (lkMexSegment l v d k) := by
  have wf' : WellFormed heap l' v' d' k' := by
    obtain ⟨n1, n2, n3, n4, hp⟩ := wf
    refine ⟨((hl.map Prod.fst).nodup_iff).2 n1, ((hv.map Prod.fst).nodup_iff).2 n2,
      ((hd.map Prod.fst).nodup_iff).2 n3, ((hk.map Prod.fst).nodup_iff).2 n4, ?_⟩
    intro p hx
    apply hp p
    have hperm : (ptrs l' ++ ptrs v' ++ ptrs d' ++ ptrs k').Perm
        (ptrs l ++ ptrs v ++ ptrs d ++ ptrs k) :=
      (((hl.map Prod.snd).append (hv.map Prod.snd)).append (hd.map Prod.snd)).append
        (hk.map Prod.snd)
    exact (hperm.mem_iff).1 hx
  have own' : OwnRecords l' v' d' k' := by
    have hperm : (ptrs l' ++ ptrs v' ++ ptrs d' ++ ptrs k').Perm
        (ptrs l ++ ptrs v ++ ptrs d ++ ptrs k) :=
      (((hl.map Prod.snd).append (hv.map Prod.snd)).append (hd.map Prod.snd)).append
        (hk.map Prod.snd)
    exact (hperm.nodup_iff).2 own
  obtain ⟨st, a1, a2, a3, a4⟩ := mergeAccounts_record heap l v d k wf own
  obtain ⟨st', b1, b2, b3, b4⟩ := mergeAccounts_record heap l' v' d' k' wf' own'
  have gl := fun a => mapGet_perm l l' a hl wf.1
  have gv := fun a => mapGet_perm v v' a hv wf.2.1
  have gd := fun a => mapGet_perm d d' a hd wf.2.2.1
  have gk := fun a => mapGet_perm k k' a hk wf.2.2.2.1
  have s1 : (keys l').Perm (keys l) := hl.map Prod.fst
  have s2 : (validatorsSegment l' v').Perm (validatorsSegment l v) := by
    unfold validatorsSegment
    have e : (keys v').filter (fun a => decide (a ∉ keys l'))
        = (keys v').filter (fun a => decide (a ∉ keys l)) :=
      List.filter_congr (fun a _ => by simp [mem_keys_perm l l' a hl])
    rw [e]
    exact (hv.map Prod.fst).filter _
  have s3 : (delegatorsSegment l' v' d').Perm (delegatorsSegment l v d) := by
    unfold delegatorsSegment
    have e : (keys d').filter (fun a => decide (a ∉ keys l' ∧ a ∉ keys v'))
        = (keys d').filter (fun a => decide (a ∉ keys l ∧ a ∉ keys v)) :=
      List.filter_congr (fun a _ => by
        simp [mem_keys_perm l l' a hl, mem_keys_perm v v' a hv])
    rw [e]
    exact (hd.map Prod.fst).filter _
  have s4 : (lkMexSegment l' v' d' k').Perm (lkMexSegment l v d k) := by
    unfold lkMexSegment
    have e : (keys k').filter
          (fun a => decide (a ∉ keys l' ∧ a ∉ keys v' ∧ a ∉ keys d'))
        = (keys k').filter (fun a => decide (a ∉ keys l ∧ a ∉ keys v ∧ a ∉ keys d)) :=
      List.filter_congr (fun a _ => by
        simp [mem_keys_perm l l' a hl, mem_keys_perm v v' a hv, mem_keys_perm d d' a hd])
    rw [e]
    exact (hk.map Prod.fst).filter _
  refine ⟨st, st', a1, b1, ?_, ?_, ?_, a3, b3, s1, s2, s3, s4⟩
  · intro a
    rw [a2, b2, mem_keys_mergedMap, mem_keys_mergedMap, mem_keys_perm l l' a hl,
      mem_keys_perm v v' a hv, mem_keys_perm d d' a hd, mem_keys_perm k k' a hk]
  · intro a
    rw [a4 a, b4 a]
    have hf : firstEntry l' v' d' k' a = firstEntry l v d k a := by
      unfold firstEntry
      rw [gl a, gv a, gd a, gk a]
    rw [hf]
    cases firstEntry l v d k a with
    | none => rfl
    | some p => exact mergedRecord_perm heap v d k v' d' k' a p (gv a) (gd a) (gk a)
  · rw [a3, b3]
    exact ((s1.append s2).append s3).append s4

theorem mergeAccounts_order_independent_witness :
    WellFormed sampleHeap sampleLegacy sampleValidators sampleDelegators sampleLkMex ∧
    OwnRecords sampleLegacy sampleValidators sampleDelegators sampleLkMex ∧
    (sampleValidators.reverse).Perm sampleValidators ∧
    ∃ st st',
      mergeAccounts sampleHeap sampleLegacy sampleValidators sampleDelegators sampleLkMex
        = some st ∧
      mergeAccounts sampleHeap sampleLegacy sampleValidators.reverse sampleDelegators
        sampleLkMex = some st' ∧
      (∀ a, a ∈ keys st'.mergedAccounts ↔ a ∈ keys st.mergedAccounts) ∧
      (∀ a, st'.record a = st.record a) ∧
      st'.allAddresses.Perm st.allAddresses ∧
      st.allAddresses = keys sampleLegacy ++ validatorsSegment sampleLegacy sampleValidators ++
        delegatorsSegment sampleLegacy sampleValidators sampleDelegators ++
        lkMexSegment sampleLegacy sampleValidators sampleDelegators sampleLkMex ∧
      st'.allAddresses = keys sampleLegacy ++
        validatorsSegment sampleLegacy sampleValidators.reverse ++
        delegatorsSegment sampleLegacy sampleValidators.reverse sampleDelegators ++
        lkMexSegment sampleLegacy sampleValidators.reverse sampleDelegators sampleLkMex ∧
      (keys sampleLegacy).Perm (keys sampleLegacy) ∧
      (validatorsSegment sampleLegacy sampleValidators.reverse).Perm
        (validatorsSegment sampleLegacy sampleValidators) ∧
      (delegatorsSegment sampleLegacy sampleValidators.reverse sampleDelegators).Perm
        (delegatorsSegment sampleLegacy sampleValidators sampleDelegators) ∧
      (lkMexSegment sampleLegacy sampleValidators.reverse sampleDelegators sampleLkMex).Perm
        (lkMexSegment sampleLegacy sampleValidators sampleDelegators sampleLkMex) :=
  ⟨by decide, by decide, List.reverse_perm _,
    mergeAccounts_order_independent sampleHeap sampleLegacy sampleValidators sampleDelegators
      sampleLkMex sampleLegacy sampleValidators.reverse sampleDelegators sampleLkMex
      (by decide) (by decide) (List.Perm.refl _) (List.reverse_perm _) (List.Perm.refl _)
      (List.Perm.refl _)⟩

end process
